import Mathlib

/-!
Verification development for the `fb_extractor` discovery core.

The Python sources under `src/discovery/` and `src/tools/discover_frontier_v2.py`
are shallowly embedded here.  Strings are modelled as `List Char` (Python `str`
is a sequence of code points).  Python functions that can raise are modelled
with `Except Unit`.  The fragment of CPython's `urllib.parse` that the code
calls (`urlparse`, `urlunparse`, `parse_qs`, `unquote`) is embedded following
the CPython 3.11 implementation.  Where Python string predicates are
Unicode-aware (`str.isdigit`, `str.lower`, `\s`, `\w`), the embedding uses the
ASCII fragment, which is the fragment exercised by the repository (group ids,
post ids and uids are ASCII digit strings).
-/

abbrev Str := List Char

/-- The ASCII upper-to-lower case table of `str.lower`. -/
def upperLower : List (Char × Char) :=
  [('A', 'a'), ('B', 'b'), ('C', 'c'), ('D', 'd'), ('E', 'e'), ('F', 'f'),
   ('G', 'g'), ('H', 'h'), ('I', 'i'), ('J', 'j'), ('K', 'k'), ('L', 'l'),
   ('M', 'm'), ('N', 'n'), ('O', 'o'), ('P', 'p'), ('Q', 'q'), ('R', 'r'),
   ('S', 's'), ('T', 't'), ('U', 'u'), ('V', 'v'), ('W', 'w'), ('X', 'x'),
   ('Y', 'y'), ('Z', 'z')]

/-- ASCII lower-casing of one character (`str.lower` restricted to ASCII,
written as an explicit table to keep the embedding free of code-point
arithmetic). -/
def lowerChar (c : Char) : Char :=
  match upperLower.find? (fun q => q.1 = c) with
  | some q => q.2
  | none => c

/-- ASCII lower-casing of a string. -/
def lowerStr (s : Str) : Str := s.map lowerChar

/-- ASCII alphabetic test (`url[0].isascii() and url[0].isalpha()`). -/
def isAsciiAlpha (c : Char) : Bool :=
  ('a' ≤ c ∧ c ≤ 'z') ∨ ('A' ≤ c ∧ c ≤ 'Z')

/-- ASCII digit test. -/
def isAsciiDigit (c : Char) : Bool := '0' ≤ c ∧ c ≤ '9'

/-- Characters allowed in a URL scheme (`urllib.parse.scheme_chars`). -/
def schemeChar (c : Char) : Bool :=
  isAsciiAlpha c ∨ isAsciiDigit c ∨ c = '+' ∨ c = '-' ∨ c = '.'

/-- The bytes CPython's `urlsplit` removes from a URL before parsing
(`_UNSAFE_URL_BYTES_TO_REMOVE` = tab, CR, LF). -/
def isUnsafeByte (c : Char) : Bool := c = '\t' ∨ c = '\r' ∨ c = '\n'

/-- Remove tab/CR/LF anywhere in the URL, as `urlsplit` does first. -/
def stripUnsafe (s : Str) : Str := s.filter (fun c => ¬ isUnsafeByte c)

/-- Split a list at the first element satisfying `p`, dropping that element.
`some (a, b)` means `l = a ++ [d] ++ b` with `p d` and no element of `a`
satisfying `p`; `none` means no element satisfies `p`.  This is Python's
`str.split(d, 1)` / `str.find(d)` pattern. -/
def splitAtFirst (p : Char → Bool) : Str → Option (Str × Str)
  | [] => none
  | c :: cs =>
    if p c then some ([], cs)
    else match splitAtFirst p cs with
      | some (a, b) => some (c :: a, b)
      | none => none

/-- Split a list at the last element satisfying `p`, dropping that element
(Python's `str.rfind` pattern). -/
def splitAtLast (p : Char → Bool) : Str → Option (Str × Str)
  | [] => none
  | c :: cs =>
    match splitAtLast p cs with
    | some (a, b) => some (c :: a, b)
    | none => if p c then some ([], cs) else none

/-- Is a candidate scheme prefix valid: nonempty, starts with an ASCII letter,
all scheme characters (the check in CPython 3.11 `urlsplit`). -/
def validSchemePre : Str → Bool
  | [] => false
  | c :: cs => isAsciiAlpha c && (c :: cs).all schemeChar

/-- Scheme splitting step of `urlsplit`: split at the first `':'` when the
prefix before it is a valid scheme; the scheme is lower-cased.  Otherwise the
URL is left untouched (scheme `[]`). -/
def splitScheme (l : Str) : Str × Str :=
  match splitAtFirst (fun c => c = ':') l with
  | some (pre, post) =>
    if validSchemePre pre then (lowerStr pre, post) else ([], l)
  | none => ([], l)

/-- Netloc delimiter characters (`_splitnetloc` stops at the first of them). -/
def netlocDelim (c : Char) : Bool := c = '/' ∨ c = '?' ∨ c = '#'

/-- The bracket sanity check `urlsplit` applies to the netloc: raises
`ValueError` when exactly one of `[` / `]` occurs. -/
def bracketBad (n : Str) : Bool :=
  (('[' ∈ n) ∧ ¬ (']' ∈ n)) ∨ ((']' ∈ n) ∧ ¬ ('[' ∈ n))

/-- Result of `urllib.parse.urlparse`: a six-component `ParseResult`. -/
structure UrlParts where
  scheme : Str
  netloc : Str
  path : Str
  params : Str
  query : Str
  fragment : Str
  deriving Repr, DecidableEq

/-- Schemes for which `urlparse` splits `;params` off the path
(`urllib.parse.uses_params`; note the empty scheme is included). -/
def usesParams (s : Str) : Bool :=
  s = [] ∨ s = ('f' :: 't' :: 'p' :: []) ∨ s = ('h' :: 'd' :: 'l' :: [])
    ∨ s = ('p' :: 'r' :: 'o' :: 's' :: 'p' :: 'e' :: 'r' :: 'o' :: [])
    ∨ s = ('h' :: 't' :: 't' :: 'p' :: [])
    ∨ s = ('i' :: 'm' :: 'a' :: 'p' :: [])
    ∨ s = ('h' :: 't' :: 't' :: 'p' :: 's' :: [])
    ∨ s = ('s' :: 'h' :: 't' :: 't' :: 'p' :: [])
    ∨ s = ('r' :: 't' :: 's' :: 'p' :: [])
    ∨ s = ('r' :: 't' :: 's' :: 'p' :: 'u' :: [])
    ∨ s = ('s' :: 'i' :: 'p' :: [])
    ∨ s = ('s' :: 'i' :: 'p' :: 's' :: [])
    ∨ s = ('m' :: 'm' :: 's' :: [])
    ∨ s = ('s' :: 'f' :: 't' :: 'p' :: [])
    ∨ s = ('t' :: 'e' :: 'l' :: [])

/-- `urllib.parse._splitparams`: split `;params` off the last path segment.
Only called when `';' ∈ url`.  `url.find(';', url.rfind('/'))` means: when the
path contains `'/'`, only a `';'` in the last segment splits. -/
def splitParams (l : Str) : Str × Str :=
  match splitAtLast (fun c => c = '/') l with
  | some (a, b) =>
    match splitAtFirst (fun c => c = ';') b with
    | some (b1, b2) => (a ++ '/' :: b1, b2)
    | none => (l, [])
  | none =>
    match splitAtFirst (fun c => c = ';') l with
    | some (a, b) => (a, b)
    | none => (l, [])

/-- Python's `s.split(d, 1)` as a pair: the part before the first `d` and the
part after it (the whole string and `[]` when `d` does not occur). -/
def cutAtFirst (d : Char) (l : Str) : Str × Str :=
  match splitAtFirst (fun c => c = d) l with
  | some ab => ab
  | none => (l, [])

/-- Embeds CPython 3.11 `urllib.parse.urlsplit` (fragment used by this repo):
remove unsafe bytes, split scheme, split netloc (with the IPv6 bracket
`ValueError`), split fragment at the first `'#'`, split query at the first
`'?'`.  `Except.error ()` models the raised `ValueError`. -/
def pyUrlsplit (u : Str) : Except Unit (Str × Str × Str × Str × Str) :=
  let u1 := stripUnsafe u
  let sp := splitScheme u1
  let scheme := sp.1
  let rest := sp.2
  let hasNet : Bool := rest.take 2 = ('/' :: '/' :: [])
  let netloc := if hasNet then (rest.drop 2).takeWhile (fun c => ¬ netlocDelim c) else []
  let rest2 := if hasNet then (rest.drop 2).dropWhile (fun c => ¬ netlocDelim c) else rest
  if bracketBad netloc then Except.error ()
  else
    let pf := cutAtFirst '#' rest2
    let pq := cutAtFirst '?' pf.1
    Except.ok (scheme, netloc, pq.1, pq.2, pf.2)

/-- Embeds `urllib.parse.urlparse`: `urlsplit` plus params splitting. -/
def pyUrlparse (u : Str) : Except Unit UrlParts :=
  match pyUrlsplit u with
  | Except.error e => Except.error e
  | Except.ok (scheme, netloc, path, query, fragment) =>
    let pp := if usesParams scheme ∧ ';' ∈ path then splitParams path else (path, [])
    Except.ok ⟨scheme, netloc, pp.1, pp.2, query, fragment⟩

/-- Embeds `urllib.parse.urlunsplit`. -/
def pyUrlunsplit (scheme netloc url query fragment : Str) : Str :=
  let url :=
    if netloc ≠ [] ∨ (url ≠ [] ∧ url.take 2 = ('/' :: '/' :: [])) then
      let url := if url ≠ [] ∧ url.take 1 ≠ ('/' :: []) then '/' :: url else url
      '/' :: '/' :: (netloc ++ url)
    else url
  let url := if scheme ≠ [] then scheme ++ ':' :: url else url
  let url := if query ≠ [] then url ++ '?' :: query else url
  if fragment ≠ [] then url ++ '#' :: fragment else url

/-- Embeds `urllib.parse.urlunparse`: rejoin `;params` then `urlunsplit`. -/
def pyUrlunparse (p : UrlParts) : Str :=
  pyUrlunsplit p.scheme p.netloc
    (p.path ++ (if p.params ≠ [] then ';' :: p.params else [])) p.query p.fragment

/-- Trailing-slash forcing step of `canonicalize_url`
(`if not u.endswith("/"): u += "/"`). -/
def forceSlash (w : Str) : Str :=
  if w.getLast? = some '/' then w else w ++ ('/' :: [])

/-- Embeds `discovery.common.canonicalize_url`: parse, blank query and
fragment, unparse, force a trailing slash.  The `ValueError` that
`urlparse` can raise propagates (the Python function does not catch it). -/
def canonicalize_url (u : Str) : Except Unit Str := do
  let p ← pyUrlparse u
  pure (forceSlash (pyUrlunparse { p with query := [], fragment := [] }))

/-- Embeds `discovery.common.strip_query_fragment`: same as
`canonicalize_url` without the trailing slash, and exceptions are caught,
returning the input unchanged. -/
def strip_query_fragment (u : Str) : Str :=
  match pyUrlparse u with
  | Except.ok p => pyUrlunparse { p with query := [], fragment := [] }
  | Except.error _ => u

deriving instance DecidableEq for Except

/-- Does the URL open with a colon preceded by a valid scheme?  (The test
`splitScheme` applies; split out for the idempotence proof.) -/
def hasValidSchemeColon (l : Str) : Bool :=
  match splitAtFirst (fun c => c = ':') l with
  | some (pre, _) => validSchemePre pre
  | none => false

/-- The `path;params` rejoin of `urlunparse`. -/
def pathParams (P : UrlParts) : Str :=
  P.path ++ (if P.params ≠ [] then ';' :: P.params else [])

/-- ASCII fragment of the whitespace set stripped by Python `str.strip()`. -/
def isPyWs (c : Char) : Bool :=
  c = ' ' ∨ c = '\t' ∨ c = '\n' ∨ c = '\r' ∨ c = '\x0B' ∨ c = '\x0C'

/-- Python `str.strip()` (ASCII whitespace fragment). -/
def pyStrip (s : Str) : Str :=
  ((s.dropWhile isPyWs).reverse.dropWhile isPyWs).reverse

/-- Python `str.rstrip("/")`. -/
def rstripSlash (s : Str) : Str :=
  (s.reverse.dropWhile (fun c => c = '/')).reverse

/-- Python `str.strip("/")`. -/
def stripSlashes (s : Str) : Str :=
  ((s.dropWhile (fun c => c = '/')).reverse.dropWhile (fun c => c = '/')).reverse

/-- Python `l.startswith(pat)`, i.e. `pat` is a prefix of `l`. -/
def hasPre (pat l : Str) : Bool := l.take pat.length = pat

/-- Python `l.endswith(pat)`. -/
def endsWith (pat l : Str) : Bool := l.reverse.take pat.length = pat.reverse

/-- Python `pat in l` (contiguous substring test). -/
def infixB (pat : Str) : Str → Bool
  | [] => pat = []
  | l@(_ :: cs) => hasPre pat l ∨ infixB pat cs

/-- One step of Python `str.replace(pat, rep)` with explicit fuel;
`replaceAll` instantiates the fuel with the string length (each step consumes
at least one character when `pat` is nonempty, so that fuel is enough).  The
`pat = []` case of Python (which interleaves `rep` everywhere) is not used by
the embedded code and is modelled as the identity. -/
def replaceAllAux (pat rep : Str) : Nat → Str → Str
  | 0, l => l
  | _, [] => []
  | fuel + 1, c :: cs =>
    if pat ≠ [] ∧ hasPre pat (c :: cs) then
      rep ++ replaceAllAux pat rep fuel ((c :: cs).drop pat.length)
    else c :: replaceAllAux pat rep fuel cs

/-- Python `str.replace(pat, rep)`: replace every non-overlapping occurrence
left to right. -/
def replaceAll (pat rep l : Str) : Str := replaceAllAux pat rep l.length l

/-- Split at every occurrence of `d` (Python `str.split(d)`). -/
def splitAll (d : Char) : Str → List Str
  | [] => [[]]
  | c :: cs =>
    if c = d then [] :: splitAll d cs
    else match splitAll d cs with
      | h :: t => (c :: h) :: t
      | [] => [[c]]

/-- Hex digit value, for percent-decoding. -/
def hexVal (c : Char) : Option Nat :=
  if '0' ≤ c ∧ c ≤ '9' then some (c.toNat - '0'.toNat)
  else if 'a' ≤ c ∧ c ≤ 'f' then some (c.toNat - 'a'.toNat + 10)
  else if 'A' ≤ c ∧ c ≤ 'F' then some (c.toNat - 'A'.toNat + 10)
  else none

/-- Collect the maximal leading run of `%hh` byte escapes
(the byte run CPython's `unquote` decodes together). -/
def collectPct : Str → (List Nat × Str)
  | '%' :: c1 :: c2 :: rest =>
    match hexVal c1, hexVal c2 with
    | some a, some b =>
      let (bs, r) := collectPct rest
      ((a * 16 + b) :: bs, r)
    | _, _ => ([], '%' :: c1 :: c2 :: rest)
  | l => ([], l)

/-- Is a byte a UTF-8 continuation byte. -/
def isCont (b : Nat) : Bool := 0x80 ≤ b ∧ b ≤ 0xBF

/-- UTF-8 decoding with `errors="replace"` (the decoder `unquote` uses):
well-formed sequences decode exactly; an ill-formed sequence is replaced by
U+FFFD, consuming the maximal subpart. -/
def utf8DecodeReplace : Nat → List Nat → Str
  | 0, _ => []
  | _, [] => []
  | fuel + 1, b :: bs =>
    if b < 0x80 then Char.ofNat b :: utf8DecodeReplace fuel bs
    else if 0xC2 ≤ b ∧ b ≤ 0xDF then
      match bs with
      | b2 :: bs2 =>
        if isCont b2 then Char.ofNat ((b - 0xC0) * 64 + (b2 - 0x80)) :: utf8DecodeReplace fuel bs2
        else '�' :: utf8DecodeReplace fuel bs
      | [] => ['�']
    else if 0xE0 ≤ b ∧ b ≤ 0xEF then
      match bs with
      | b2 :: bs2 =>
        if (if b = 0xE0 then 0xA0 ≤ b2 ∧ b2 ≤ 0xBF
            else if b = 0xED then 0x80 ≤ b2 ∧ b2 ≤ 0x9F
            else isCont b2) then
          match bs2 with
          | b3 :: bs3 =>
            if isCont b3 then
              Char.ofNat ((b - 0xE0) * 4096 + (b2 - 0x80) * 64 + (b3 - 0x80))
                :: utf8DecodeReplace fuel bs3
            else '�' :: utf8DecodeReplace fuel bs2
          | [] => ['�']
        else '�' :: utf8DecodeReplace fuel bs
      | [] => ['�']
    else if 0xF0 ≤ b ∧ b ≤ 0xF4 then
      match bs with
      | b2 :: bs2 =>
        if (if b = 0xF0 then 0x90 ≤ b2 ∧ b2 ≤ 0xBF
            else if b = 0xF4 then 0x80 ≤ b2 ∧ b2 ≤ 0x8F
            else isCont b2) then
          match bs2 with
          | b3 :: bs3 =>
            if isCont b3 then
              match bs3 with
              | b4 :: bs4 =>
                if isCont b4 then
                  Char.ofNat ((b - 0xF0) * 262144 + (b2 - 0x80) * 4096
                      + (b3 - 0x80) * 64 + (b4 - 0x80)) :: utf8DecodeReplace fuel bs4
                else '�' :: utf8DecodeReplace fuel bs3
              | [] => ['�']
            else '�' :: utf8DecodeReplace fuel bs2
          | [] => ['�']
        else '�' :: utf8DecodeReplace fuel bs
      | [] => ['�']
    else '�' :: utf8DecodeReplace fuel bs

/-- Embeds `urllib.parse.unquote` (fuelled; each step consumes at least one
character): decode maximal runs of `%hh` escapes as UTF-8 with
`errors="replace"`; a `%` not followed by two hex digits is literal. -/
def pyUnquoteAux (fuel : Nat) (l : Str) : Str :=
  match fuel, l with
  | 0, l => l
  | _, [] => []
  | fuel + 1, '%' :: rest =>
    (match collectPct ('%' :: rest) with
     | ([], _) => '%' :: pyUnquoteAux fuel rest
     | (bs, r) => utf8DecodeReplace bs.length bs ++ pyUnquoteAux fuel r)
  | fuel + 1, c :: cs => c :: pyUnquoteAux fuel cs

/-- Embeds `urllib.parse.unquote`. -/
def pyUnquote (l : Str) : Str := pyUnquoteAux l.length l

/-- Embeds `urllib.parse.parse_qsl` with default arguments (CPython):
split on `&`, keep only pairs with an `=` and a nonempty value, map `+` to
space, `unquote` names and values. -/
def parse_qsl (qs : Str) : List (Str × Str) :=
  (splitAll '&' qs).filterMap (fun nv =>
    if nv = [] then none
    else match splitAtFirst (fun c => c = '=') nv with
      | none => none
      | some (name, value) =>
        if value = [] then none
        else some (pyUnquote (name.map (fun c => if c = '+' then ' ' else c)),
                   pyUnquote (value.map (fun c => if c = '+' then ' ' else c))))

/-- `parse_qs(qs).get(key, [])`: the values recorded for `key`, in order. -/
def parse_qs_get (key qs : Str) : List Str :=
  (parse_qsl qs).filterMap (fun p => if p.1 = key then some p.2 else none)

/-- ASCII fragment of Python `str.isdigit()`: nonempty and all digits. -/
def pyIsDigit (s : Str) : Bool := s ≠ [] ∧ s.all isAsciiDigit

/-- Case-insensitive literal match at the head: the pattern is given
lower-case; on success returns the remainder (models `re.IGNORECASE` literal
parts, ASCII). -/
def matchCiLit (pat l : Str) : Option Str :=
  if lowerStr (l.take pat.length) = pat ∧ pat.length ≤ l.length
  then some (l.drop pat.length) else none

/-- Maximal leading digit run and the remainder (`\d+` is greedy and, being
followed by a non-digit literal in every embedded pattern, deterministic). -/
def takeDigits (l : Str) : Str × Str :=
  (l.takeWhile isAsciiDigit, l.dropWhile isAsciiDigit)

/-- Leftmost match of `GROUP_ID_RE = /groups/(\d+)` (IGNORECASE): the first
digit run following a case-insensitive `/groups/`. -/
def searchGroupId : Str → Option Str
  | [] => none
  | l@(_ :: cs) =>
    match matchCiLit ("/groups/".toList) l with
    | some r =>
      let (d, _) := takeDigits r
      if d ≠ [] then some d else searchGroupId cs
    | none => searchGroupId cs

/-- Embeds `discovery.common.parse_group_id`: leftmost `GROUP_ID_RE` match or
a raised `ValueError`. -/
def parse_group_id (u : Str) : Except Unit Str :=
  match searchGroupId u with
  | some g => Except.ok g
  | none => Except.error ()

/-- Match `POST_RE = /groups/(\d+)/posts/(\d+)` (IGNORECASE) at the head,
returning both digit groups and the remainder after the match. -/
def matchPostAt (l : Str) : Option (Str × Str × Str) :=
  match matchCiLit ("/groups/".toList) l with
  | none => none
  | some r =>
    let (d1, r1) := takeDigits r
    if d1 = [] then none
    else match matchCiLit ("/posts/".toList) r1 with
      | none => none
      | some r2 =>
        let (d2, r3) := takeDigits r2
        if d2 = [] then none else some (d1, d2, r3)

/-- Leftmost `POST_RE` match (`re.search`). -/
def searchPostRe : Str → Option (Str × Str)
  | [] => none
  | l@(_ :: cs) =>
    match matchPostAt l with
    | some (g, p, _) => some (g, p)
    | none => searchPostRe cs

/-- Embeds `discovery.common.canonical_group_post_url`. -/
def canonical_group_post_url (group_id post_id : Str) : Str :=
  ("https://www.facebook.com/groups/".toList) ++ group_id
    ++ ("/posts/".toList) ++ post_id ++ ('/' :: [])

/-- Embeds `discovery.common.normalize_target_slug`: the profile path with
slashes stripped, empty for `profile.php` addresses; the `ValueError` from
`urlparse` propagates. -/
def normalize_target_slug (u : Str) : Except Unit Str := do
  let p ← pyUrlparse u
  let path := stripSlashes p.path
  if hasPre ("profile.php".toList) (lowerStr path) then pure [] else pure path

/-- Embeds `discovery.common.href_to_abs`. -/
def href_to_abs (h : Str) : Str :=
  if h.take 1 = ('/' :: []) then ("https://www.facebook.com".toList) ++ h else h

/-- Leftmost match of `PROFILE_ID_RE = profile\.php\?id=(\d+)` (IGNORECASE). -/
def searchProfileIdRe : Str → Option Str
  | [] => none
  | l@(_ :: cs) =>
    match matchCiLit ("profile.php?id=".toList) l with
    | some r =>
      let (d, _) := takeDigits r
      if d ≠ [] then some d else searchProfileIdRe cs
    | none => searchProfileIdRe cs

/-- Embeds `discovery.common.extract_profile_id_from_href`: the
`/profile.php` query-string route first, then the `PROFILE_ID_RE` scan; all
exceptions yield `None`. -/
def extract_profile_id_from_href (h : Str) : Option Str :=
  let abs_h := href_to_abs h
  match pyUrlparse abs_h with
  | Except.error _ => none
  | Except.ok p =>
    let pl := lowerStr p.path
    let viaQs : Option Str :=
      if endsWith ("/profile.php".toList) pl ∨ pl = ("/profile.php".toList) then
        match parse_qs_get ("id".toList) p.query with
        | v :: _ => if pyIsDigit v then some v else none
        | [] => none
      else none
    match viaQs with
    | some v => some v
    | none => searchProfileIdRe abs_h

/-- Embeds `discovery.common.stable_dedupe_in_order` (with an explicit seen
accumulator). -/
def dedupeAux (seen : List Str) : List Str → List Str
  | [] => []
  | x :: xs => if x ∈ seen then dedupeAux seen xs else x :: dedupeAux (x :: seen) xs

/-- Embeds `discovery.common.stable_dedupe_in_order`. -/
def stable_dedupe_in_order (l : List Str) : List Str := dedupeAux [] l

/-- Embeds `discovery.common.VerificationResult`. -/
structure VerificationResult where
  verified : Bool
  method : Str
  author_uid_found : Option Str
  deriving Repr, DecidableEq

/-- A rendered page as the verifier observes it through the driver:
`content` is `page.content()` (`none` models a raised exception);
`authorishHrefs` records, for each of the five `_AUTHOR_SELECTORS` in order,
the `href` attribute of the first matching element (`none` models no
element, a missing attribute, or a raised exception — the branches the code
treats alike by moving to the next selector); `allHrefs` is the
`a[href]` attribute scan (`none` models a raised exception). -/
structure VPage where
  content : Option Str
  authorishHrefs : List (Option Str)
  allHrefs : Option (List Str)

/-- Whitespace class of `re` patterns (`\s`, ASCII fragment). -/
def isReWs (c : Char) : Bool :=
  c = ' ' ∨ c = '\t' ∨ c = '\n' ∨ c = '\r' ∨ c = '\x0B' ∨ c = '\x0C'

/-- Word-character class of `re` patterns (`\w`, ASCII fragment). -/
def isWordChar (c : Char) : Bool :=
  isAsciiAlpha c ∨ isAsciiDigit c ∨ c = '_'

/-- `\b` after a literal: a boundary sits between the literal's last
character and what follows (end of input counts as non-word). -/
def wordBoundaryAfter (lastc : Char) (rest : Str) : Bool :=
  match rest with
  | [] => isWordChar lastc
  | c :: _ => isWordChar lastc ≠ isWordChar c

/-- Match the literal `mid` followed by `\b` at the head of `l`
(`mid` is nonempty at every call site). -/
def matchMidBd (mid l : Str) : Bool :=
  hasPre mid l &&
    (match mid.getLast? with
     | some lastc => wordBoundaryAfter lastc (l.drop mid.length)
     | none => false)

/-- Match `\s* mid \b` at the head of `l`, with full backtracking over the
whitespace run (existence of a match is what `re.search` reports). -/
def skipWsMid (mid : Str) : Str → Bool
  | [] => matchMidBd mid []
  | l@(c :: cs) => matchMidBd mid l ∨ (isReWs c ∧ skipWsMid mid cs)

/-- Match `"actorID" \s* : \s* mid \b` at the head of `l` (the `_ACTORID_NUM`
/ `_ACTORID_STR` patterns with `mid` the escaped uid, bare or quoted). -/
def actoridAt (mid l : Str) : Bool :=
  if hasPre ("\"actorID\"".toList) l then
    match (l.drop 9).dropWhile isReWs with
    | ':' :: r3 => skipWsMid mid r3
    | _ => false
  else false

/-- `re.search` of the actorID pattern: try every start position. -/
def actoridSearch (mid : Str) : Str → Bool
  | [] => false
  | l@(_ :: cs) => actoridAt mid l ∨ actoridSearch mid cs

/-- Embeds `discovery.verifier._html_actorid_match`: the bare-numeric
encoding first, then the quoted encoding; no content or no uid is `False`. -/
def html_actorid_match (content : Option Str) (target_uid : Str) : Bool :=
  if target_uid = [] then false
  else match content with
    | none => false
    | some html =>
      actoridSearch target_uid html
        ∨ actoridSearch ('"' :: (target_uid ++ ('"' :: []))) html

/-- Embeds `discovery.verifier._get_first_authorish_href`: first selector
whose first element has a nonempty stripped `href`. -/
def get_first_authorish_href : List (Option Str) → Option Str
  | [] => none
  | some h :: rest =>
    let s := pyStrip h
    if s ≠ [] then some s else get_first_authorish_href rest
  | none :: rest => get_first_authorish_href rest

/-- The href normalization both verifier passes apply:
`strip_query_fragment(abs).replace("http://","https://").rstrip("/").lower()`. -/
def normHref (abs_h : Str) : Str :=
  lowerStr (rstripSlash
    (replaceAll ("http://".toList) ("https://".toList) (strip_query_fragment abs_h)))

/-- The slug test of the verifier: `("/" + t_slug) in urlparse(hh_norm).path`,
with any `urlparse` exception treated as no match. -/
def slugInPath (t_slug hh_norm : Str) : Bool :=
  match pyUrlparse hh_norm with
  | Except.ok p => infixB ('/' :: t_slug) p.path
  | Except.error _ => false

/-- State of the all-links scan of `verify_author`: Python's
`found_uids: Set[str]` is modelled as the insertion-ordered list of distinct
uids together with a `pick` function standing for `next(iter(found_uids))` —
CPython set iteration order is unspecified, so `pick` is a parameter,
constrained (in the theorems) only to return an element of the set. -/
def pickOpt (pick : List Str → Option Str) (uids : List Str) : Option Str :=
  if uids = [] then none else pick uids

/-- The `found_uids.add` step of the scan: insert a freshly extracted uid
(if any) into the insertion-ordered distinct-uid list. -/
def updateUids (uids : List Str) : Option Str → List Str
  | some u => if u ∈ uids then uids else uids ++ [u]
  | none => uids

/-- The per-link body of the fallback scan of `verify_author` (lines
116-138): fold over the hrefs, threading the distinct-uid list. -/
def scanLinks (pick : List Str → Option Str) (t_uid t_full t_slug : Str) :
    List Str → List Str → VerificationResult
  | uids, [] => ⟨false, ("none".toList), pickOpt pick uids⟩
  | uids, h :: rest =>
    let hh_abs := href_to_abs h
    let hh_norm := normHref hh_abs
    let uid := extract_profile_id_from_href hh_abs
    let uids' := updateUids uids uid
    match uid with
    | some u =>
      if t_uid ≠ [] ∧ u = t_uid then ⟨true, ("uid".toList), some u⟩
      else if t_full ≠ [] ∧ infixB t_full hh_norm then
        ⟨true, ("profile_url".toList), pickOpt pick uids'⟩
      else if t_slug ≠ [] ∧ slugInPath t_slug hh_norm then
        ⟨true, ("slug".toList), pickOpt pick uids'⟩
      else scanLinks pick t_uid t_full t_slug uids' rest
    | none =>
      if t_full ≠ [] ∧ infixB t_full hh_norm then
        ⟨true, ("profile_url".toList), pickOpt pick uids'⟩
      else if t_slug ≠ [] ∧ slugInPath t_slug hh_norm then
        ⟨true, ("slug".toList), pickOpt pick uids'⟩
      else scanLinks pick t_uid t_full t_slug uids' rest

/-- The insertion-ordered distinct uid list the scan has collected after
consuming all hrefs (used to state what `author_uid_found` can be in the
`method="none"` outcome). -/
def collectUids (uids : List Str) : List Str → List Str
  | [] => uids
  | h :: rest =>
    collectUids (updateUids uids (extract_profile_id_from_href (href_to_abs h))) rest

/-- Embeds `discovery.verifier.verify_author`.  `pick` models CPython set
iteration (`next(iter(found_uids))`); the `ValueError` that
`normalize_target_slug` can raise on a malformed target profile URL
propagates, as in the source. -/
def verify_author (pick : List Str → Option Str) (page : VPage)
    (target_profile_url target_uid : Str) : Except Unit VerificationResult := do
  let t_uid := pyStrip target_uid
  let t_full := lowerStr (strip_query_fragment
    (rstripSlash (replaceAll ("http://".toList) ("https://".toList) target_profile_url)))
  let t_slug0 ← normalize_target_slug target_profile_url
  let t_slug := lowerStr (pyStrip t_slug0)
  if t_uid ≠ [] ∧ html_actorid_match page.content t_uid then
    pure ⟨true, ("uid".toList), some t_uid⟩
  else
    let viaHeader : Option VerificationResult :=
      match get_first_authorish_href page.authorishHrefs with
      | none => none
      | some h0 =>
        let hh_abs := href_to_abs h0
        let hh_norm := normHref hh_abs
        let uid0 := extract_profile_id_from_href hh_abs
        if (match uid0 with
            | some u => decide (t_uid ≠ [] ∧ u = t_uid)
            | none => false) then
          some ⟨true, ("uid".toList), uid0⟩
        else if t_full ≠ [] ∧ infixB t_full hh_norm then
          some ⟨true, ("profile_url".toList), uid0⟩
        else if t_slug ≠ [] ∧ slugInPath t_slug hh_norm then
          some ⟨true, ("slug".toList), uid0⟩
        else none
    match viaHeader with
    | some vr => pure vr
    | none =>
      pure (scanLinks pick t_uid t_full t_slug [] (page.allHrefs.getD []))

/-- Embeds `discovery.common.Budget` (the fields the strategies and the
orchestration loop branch on; `max_minutes` and `pause_s` are wall-clock /
driver pacing parameters, abstracted below by the `timeUp` oracle and the
driver trace). -/
structure Budget where
  max_posts : Nat
  max_scrolls : Nat
  stop_after_no_new : Nat
  deriving Repr, DecidableEq

/-- One driver observation per strategy step: the anchor `href`s matching
the group-post selector (`none` models a raised exception, which the code
turns into `[]`), the end-of-results marker probe, and the raw markup
(`none` models `page.content()` raising).  The scroll between steps is
modelled by indexing the trace with the step number. -/
structure SurfSnap where
  anchorHrefs : Option (List Str)
  endSeen : Bool
  content : Option Str

/-- Embeds `discovery.surfaces._extract_post_ids_from_anchors`: keep the
second `POST_RE` group of each href whose first group equals `group_id`,
then stable-dedupe.  (The source appends and dedupes at the end; the digit
check is `pid.isdigit()`.) -/
def extract_post_ids_from_anchors (hrefs : Option (List Str)) (group_id : Str) : List Str :=
  stable_dedupe_in_order ((hrefs.getD []).filterMap (fun h =>
    match searchPostRe h with
    | some (gid, pid) => if gid = group_id ∧ pyIsDigit pid then some pid else none
    | none => none))

/-- The snapshot milestones of `surface_group_search` (and
`surface_profile_group_posts`): `scroll_index in (1, 3, 5, 10, 25, 50) or
scroll_index % 25 == 0`. -/
def searchMilestone (i : Nat) : Bool :=
  i = 1 ∨ i = 3 ∨ i = 5 ∨ i = 10 ∨ i = 25 ∨ i = 50 ∨ i % 25 = 0

/-- The snapshot milestones of `surface_group_feed`:
`scroll_index in (1, 5, 10, 25, 50) or scroll_index % 25 == 0`. -/
def feedMilestone (i : Nat) : Bool :=
  i = 1 ∨ i = 5 ∨ i = 10 ∨ i = 25 ∨ i = 50 ∨ i % 25 = 0

/-- What a strategy generator produces over a whole run: the yielded
`(new_pids, scroll_index, end_seen)` tuples in order, and the scroll indices
at which a milestone page dump was captured. -/
structure SurfOut where
  steps : List (List Str × Nat × Bool)
  captures : List Nat
  deriving Repr, DecidableEq

/-- Loop body of `surface_group_search`, by recursion on the remaining
scroll allowance (`fuel` starts at `max_scrolls`, `idx` at 1, mirroring
`for scroll_index in range(1, budget.max_scrolls + 1)`).  The per-step new
list is the extracted (already deduped) ids not yet seen; the no-new streak
and the seen set are strategy-local state. -/
def sgsAux (trace : Nat → SurfSnap) (group_id : Str) (stopAfterNoNew : Nat) :
    Nat → Nat → List Str → Nat → SurfOut
  | 0, _, _, _ => ⟨[], []⟩
  | fuel + 1, idx, seen, streak =>
    let snap := trace idx
    let pids := extract_post_ids_from_anchors snap.anchorHrefs group_id
    let new := pids.filter (fun p => ¬ p ∈ seen)
    let seen' := seen ++ new
    let streak' := if new = [] then streak + 1 else 0
    let caps := if searchMilestone idx then [idx] else []
    let step := (new, idx, snap.endSeen)
    if snap.endSeen ∨ streak' ≥ stopAfterNoNew then ⟨[step], caps⟩
    else
      let rest := sgsAux trace group_id stopAfterNoNew fuel (idx + 1) seen' streak'
      ⟨step :: rest.steps, caps ++ rest.captures⟩

/-- Embeds `discovery.surfaces.surface_group_search` (run to completion
against a driver trace). -/
def surface_group_search (trace : Nat → SurfSnap) (group_id : Str) (budget : Budget) : SurfOut :=
  sgsAux trace group_id budget.stop_after_no_new budget.max_scrolls 1 [] 0

/-- Embeds `discovery.surfaces.surface_profile_group_posts`, which delegates
to `surface_group_search`. -/
def surface_profile_group_posts (trace : Nat → SurfSnap) (group_id : Str) (budget : Budget) : SurfOut :=
  surface_group_search trace group_id budget

/-- Match `_GROUP_POST_RE` at the head, returning the two digit groups and
the remainder (same shape as `POST_RE`). -/
def finditerGroupPostAux : Nat → Str → List (Str × Str)
  | 0, _ => []
  | _, [] => []
  | fuel + 1, l@(_ :: cs) =>
    match matchPostAt l with
    | some (g, p, rest) => (g, p) :: finditerGroupPostAux fuel rest
    | none => finditerGroupPostAux fuel cs

/-- `re.finditer` of `_GROUP_POST_RE`: non-overlapping matches, left to
right. -/
def finditerGroupPost (html : Str) : List (Str × Str) :=
  finditerGroupPostAux html.length html

/-- Match `_PERMALINK_RE = https?://www\.facebook\.com/permalink\.php\?story_fbid=(\d+)&id=(\d+)`
at the head, returning `(story_fbid, id)` and the remainder. -/
def matchPermalinkAt (l : Str) : Option (Str × Str × Str) :=
  match matchCiLit ("http".toList) l with
  | none => none
  | some r =>
    let tryTail (r : Str) : Option (Str × Str × Str) :=
      match matchCiLit ("://www.facebook.com/permalink.php?story_fbid=".toList) r with
      | none => none
      | some r2 =>
        let (d1, r3) := takeDigits r2
        if d1 = [] then none
        else match matchCiLit ("&id=".toList) r3 with
          | none => none
          | some r4 =>
            let (d2, r5) := takeDigits r4
            if d2 = [] then none else some (d1, d2, r5)
    match matchCiLit ("s".toList) r with
    | some rs =>
      match tryTail rs with
      | some out => some out
      | none => tryTail r
    | none => tryTail r

/-- `re.finditer` of `_PERMALINK_RE`. -/
def finditerPermalinkAux : Nat → Str → List (Str × Str)
  | 0, _ => []
  | _, [] => []
  | fuel + 1, l@(_ :: cs) =>
    match matchPermalinkAt l with
    | some (d1, d2, rest) => (d1, d2) :: finditerPermalinkAux fuel rest
    | none => finditerPermalinkAux fuel cs

/-- `re.finditer` of `_PERMALINK_RE`: non-overlapping matches. -/
def finditerPermalink (html : Str) : List (Str × Str) :=
  finditerPermalinkAux html.length html

/-- Match `_STORY_FBID_RE = story_fbid=(\d+)` at the head. -/
def matchStoryFbidAt (l : Str) : Option (Str × Str) :=
  match matchCiLit ("story_fbid=".toList) l with
  | none => none
  | some r =>
    let (d, r2) := takeDigits r
    if d = [] then none else some (d, r2)

/-- `re.finditer` of `_STORY_FBID_RE`. -/
def finditerStoryFbidAux : Nat → Str → List Str
  | 0, _ => []
  | _, [] => []
  | fuel + 1, l@(_ :: cs) =>
    match matchStoryFbidAt l with
    | some (d, rest) => d :: finditerStoryFbidAux fuel rest
    | none => finditerStoryFbidAux fuel cs

/-- `re.finditer` of `_STORY_FBID_RE`: non-overlapping matches. -/
def finditerStoryFbid (html : Str) : List Str :=
  finditerStoryFbidAux html.length html

/-- Embeds `discovery.surfaces._extract_post_ids_from_html_regex`: group-post
links, then permalinks whose `id` is the group, then (when the group path
occurs anywhere in the markup) bare `story_fbid`s; stable-deduped. -/
def extract_post_ids_from_html_regex (html group_id : Str) : List Str :=
  let a := (finditerGroupPost html).filterMap
    (fun gp => if gp.1 = group_id then some gp.2 else none)
  let b := (finditerPermalink html).filterMap
    (fun sp => if sp.2 = group_id then some sp.1 else none)
  let c := if infixB (("/groups/".toList) ++ group_id) html
    then finditerStoryFbid html else []
  stable_dedupe_in_order (a ++ b ++ c)

/-- Loop body of `surface_group_feed`: like `sgsAux` but extraction is the
regex scan over `page.content()`; when `page.content()` raises the strategy
dumps a `content_error` diagnostic (not a milestone capture) and breaks
before yielding; there is no end-marker probe (`end_seen` is always
`False`). -/
def sgfAux (trace : Nat → SurfSnap) (group_id : Str) (stopAfterNoNew : Nat) :
    Nat → Nat → List Str → Nat → SurfOut
  | 0, _, _, _ => ⟨[], []⟩
  | fuel + 1, idx, seen, streak =>
    match (trace idx).content with
    | none => ⟨[], []⟩
    | some html =>
      let pids := extract_post_ids_from_html_regex html group_id
      let new := pids.filter (fun p => ¬ p ∈ seen)
      let seen' := seen ++ new
      let streak' := if new = [] then streak + 1 else 0
      let caps := if feedMilestone idx then [idx] else []
      let step := (new, idx, false)
      if streak' ≥ stopAfterNoNew then ⟨[step], caps⟩
      else
        let rest := sgfAux trace group_id stopAfterNoNew fuel (idx + 1) seen' streak'
        ⟨step :: rest.steps, caps ++ rest.captures⟩

/-- Embeds `discovery.surfaces.surface_group_feed`. -/
def surface_group_feed (trace : Nat → SurfSnap) (group_id : Str) (budget : Budget) : SurfOut :=
  sgfAux trace group_id budget.stop_after_no_new budget.max_scrolls 1 [] 0

/-- The `stats` dict of `discover_frontier_v2.main` (run-scoped counters; the
configuration echo fields are omitted). -/
structure RunStats where
  scrolls : Nat
  candidates_seen : Nat
  verify_attempts : Nat
  verified_target_posts : Nat
  skipped_existing : Nat
  skipped_existing_post_id : Nat
  stopped_reason : Option Str
  deriving Repr, DecidableEq

/-- The initial `stats` values. -/
def initStats : RunStats := ⟨0, 0, 0, 0, 0, 0, none⟩

/-- One appended frontier row (the fields the claims are about; the constant
configuration echo fields are omitted). -/
structure OutRow where
  post_id : Str
  verification_method : Str
  author_uid_found : Option Str
  discovered_order : Nat
  verify_attempt : Nat
  scrolls : Nat
  deriving Repr, DecidableEq

/-- Run-local mutable state of `main`: `discovered_order`, `seen_post_ids`,
`verified_post_ids` (insertion-ordered, duplicate-free lists standing for
the Python sets), the stats dict, and the appended output rows. -/
structure RunState where
  discoveredOrder : Nat
  seen : List Str
  verified : List Str
  stats : RunStats
  output : List OutRow
  deriving Repr, DecidableEq

/-- The initial run state. -/
def initRunState : RunState := ⟨0, [], [], initStats, []⟩

/-- What the verification page yields for one candidate: whether `safe_goto`
returned (vs. raising), whether a login-wall or error page was detected, and
the `verify_author` result at that page.  Each candidate is navigated at
most once per run, so indexing by candidate id is faithful. -/
structure CandEnv where
  navOk : Bool
  wall : Bool
  vr : VerificationResult

/-- Embeds `stop_if_budget_or_time` of `discover_frontier_v2.main`: the
verified-count ceiling first, then the wall-clock ceiling (the latter
abstracted to a boolean oracle). -/
def stop_if_budget_or_time (verifiedCount maxPosts : Nat) (timeUp : Bool) : Option Str :=
  if verifiedCount ≥ maxPosts then some ("max_posts".toList)
  else if timeUp then some ("max_minutes".toList)
  else none

/-- Embeds the per-candidate body of the orchestration loop
(`discover_frontier_v2.main`, lines 203–277): seen-set skip, discovery
bookkeeping, on-disk id/url skips, navigation and wall checks, verification,
within-run re-verification guard, append. -/
def processCandidate (existingUrls existingIds : List Str) (env : Str → CandEnv)
    (group_id : Str) (scrollIdx : Nat) (st : RunState) (pid : Str) : RunState :=
  if pid ∈ st.seen then st
  else
    let seen' := st.seen ++ [pid]
    let st := { st with
      seen := seen', discoveredOrder := st.discoveredOrder + 1,
      stats := { st.stats with candidates_seen := seen'.length } }
    let post_url := canonical_group_post_url group_id pid
    if pid ∈ existingIds then
      { st with stats :=
        { st.stats with skipped_existing_post_id := st.stats.skipped_existing_post_id + 1 } }
    else if post_url ∈ existingUrls then
      { st with stats :=
        { st.stats with skipped_existing := st.stats.skipped_existing + 1 } }
    else
      let st := { st with stats :=
        { st.stats with verify_attempts := st.stats.verify_attempts + 1 } }
      let e := env pid
      if ¬ e.navOk then st
      else if e.wall then st
      else if ¬ e.vr.verified then st
      else if pid ∈ st.verified then st
      else
        let verified' := st.verified ++ [pid]
        { st with
          verified := verified',
          stats := { st.stats with verified_target_posts := verified'.length },
          output := st.output ++ [⟨pid, e.vr.method, e.vr.author_uid_found,
            st.discoveredOrder, st.stats.verify_attempts, scrollIdx⟩] }

/-- Embeds the step loop of `discover_frontier_v2.main` (lines 191–283):
record the scroll index, re-evaluate the budget/time stop, mark
end-of-results, process the step's candidates in order, break on
end-of-results.  `k` counts the budget checks so the time oracle can be
indexed. -/
def runSteps (budget : Budget) (existingUrls existingIds : List Str)
    (env : Str → CandEnv) (group_id : Str) (timeUp : Nat → Bool) :
    List (List Str × Nat × Bool) → Nat → RunState → RunState
  | [], _, st => st
  | (newPids, scrollIdx, endSeen) :: rest, k, st =>
    let st := { st with stats := { st.stats with scrolls := scrollIdx } }
    match stop_if_budget_or_time st.verified.length budget.max_posts (timeUp k) with
    | some r => { st with stats := { st.stats with stopped_reason := some r } }
    | none =>
      let st := if endSeen then
          { st with stats := { st.stats with stopped_reason := some ("end_of_results".toList) } }
        else st
      let st := newPids.foldl (processCandidate existingUrls existingIds env group_id scrollIdx) st
      if st.stats.stopped_reason = some ("end_of_results".toList) then st
      else runSteps budget existingUrls existingIds env group_id timeUp rest (k + 1) st

/-- A whole run of the orchestration loop from the initial state. -/
def runFromInit (budget : Budget) (existingUrls existingIds : List Str)
    (env : Str → CandEnv) (group_id : Str) (timeUp : Nat → Bool)
    (steps : List (List Str × Nat × Bool)) : RunState :=
  runSteps budget existingUrls existingIds env group_id timeUp steps 0 initRunState

/-- Fixture: a verification environment that verifies every candidate
(used by concrete run scenarios). -/
def envVerifyAll : Str → CandEnv :=
  fun _ => ⟨true, false, ⟨true, ("uid".toList), none⟩⟩

/-- Fixture: a driver trace whose every snapshot has no anchors, no end
marker and empty markup. -/
def emptyTrace : Nat → SurfSnap := fun _ => ⟨some [], false, some []⟩

/-- Fixture: `next(iter(s))` realized as "first inserted element" — one
legitimate CPython set-iteration order. -/
def pickHead : List Str → Option Str := fun l => l.head?

/-- Fixture: a page whose markup carries a matching `actorID` field while its
first author-like link points at a different profile. -/
def pageActoridAndOtherLink : VPage :=
  ⟨some ("\x7b\"actorID\":1007,\"x\":2\x7d".toList),
   [some ("/other.person".toList)],
   some [("/other.person".toList)]⟩

/-- Fixture: a page with no matching rule whose links carry the two distinct
uids 111 (first) and 222 (last). -/
def pageTwoUids : VPage :=
  ⟨some [], [],
   some [("/profile.php?id=111".toList), ("/profile.php?id=222".toList)]⟩

/-- Fixture: a page with a single non-author link and empty markup. -/
def pagePlainLink : VPage :=
  ⟨some [], [some ("/somewhere".toList)], some [("/somewhere".toList)]⟩

/-- The `(verified, method)` pair of a result — the part of a
`VerificationResult` that is independent of set-iteration order. -/
def vrCore (vr : VerificationResult) : Bool × Str := (vr.verified, vr.method)

/-- The run-state invariant behind within-run output dedup: the verified
set is duplicate-free, the appended rows carry pairwise-distinct post ids,
and every appended post id is in the verified set. -/
def outputDedupInv (st : RunState) : Prop :=
  st.verified.Nodup ∧ (st.output.map OutRow.post_id).Nodup
    ∧ ∀ r ∈ st.output, OutRow.post_id r ∈ st.verified

/-! ### Surface strategy lemmas -/

theorem sgsAux_len_le (trace : Nat → SurfSnap) (gid : Str) (s : Nat) :
    ∀ fuel idx seen streak,
      (sgsAux trace gid s fuel idx seen streak).steps.length ≤ fuel := by
  intro fuel
  induction fuel with
  | zero => intro idx seen streak; simp [sgsAux]
  | succ n ih =>
    intro idx seen streak
    simp only [sgsAux]
    split <;> split
    · simp
    · simpa using ih (idx + 1) _ _
    · simp
    · simpa using ih (idx + 1) _ _

theorem sgsAux_indices (trace : Nat → SurfSnap) (gid : Str) (s : Nat) :
    ∀ fuel idx seen streak,
      ((sgsAux trace gid s fuel idx seen streak).steps.map (fun x => x.2.1))
        = List.range' idx (sgsAux trace gid s fuel idx seen streak).steps.length := by
  intro fuel
  induction fuel with
  | zero => intro idx seen streak; simp [sgsAux]
  | succ n ih =>
    intro idx seen streak
    simp only [sgsAux]
    split <;> split <;>
      simp [ih (idx + 1), List.range'_succ, List.range'_one]

theorem sgfAux_len_le (trace : Nat → SurfSnap) (gid : Str) (s : Nat) :
    ∀ fuel idx seen streak,
      (sgfAux trace gid s fuel idx seen streak).steps.length ≤ fuel := by
  intro fuel
  induction fuel with
  | zero => intro idx seen streak; simp [sgfAux]
  | succ n ih =>
    intro idx seen streak
    simp only [sgfAux]
    split
    · simp
    · split <;> split
      · simp
      · simpa using ih (idx + 1) _ _
      · simp
      · simpa using ih (idx + 1) _ _

theorem sgfAux_indices (trace : Nat → SurfSnap) (gid : Str) (s : Nat) :
    ∀ fuel idx seen streak,
      ((sgfAux trace gid s fuel idx seen streak).steps.map (fun x => x.2.1))
        = List.range' idx (sgfAux trace gid s fuel idx seen streak).steps.length := by
  intro fuel
  induction fuel with
  | zero => intro idx seen streak; simp [sgfAux]
  | succ n ih =>
    intro idx seen streak
    simp only [sgfAux]
    split
    · simp
    · split <;> split <;>
        simp [ih (idx + 1), List.range'_succ, List.range'_one]

/-- C9: every surface strategy generator yields at most `max_scrolls`
tuples, and the step indices carried by the yielded tuples are exactly
`1, 2, ..., n` in order — so every strategy terminates under any driver
behaviour. -/
theorem surface_steps_bounded_and_indexed (trace : Nat → SurfSnap) (gid : Str)
    (budget : Budget) :
    ((surface_group_search trace gid budget).steps.length ≤ budget.max_scrolls
      ∧ (surface_group_search trace gid budget).steps.map (fun x => x.2.1)
          = List.range' 1 (surface_group_search trace gid budget).steps.length)
    ∧ ((surface_profile_group_posts trace gid budget).steps.length ≤ budget.max_scrolls
      ∧ (surface_profile_group_posts trace gid budget).steps.map (fun x => x.2.1)
          = List.range' 1 (surface_profile_group_posts trace gid budget).steps.length)
    ∧ ((surface_group_feed trace gid budget).steps.length ≤ budget.max_scrolls
      ∧ (surface_group_feed trace gid budget).steps.map (fun x => x.2.1)
          = List.range' 1 (surface_group_feed trace gid budget).steps.length) := by
  refine ⟨⟨?_, ?_⟩, ⟨?_, ?_⟩, ?_, ?_⟩
  · exact sgsAux_len_le trace gid _ _ 1 [] 0
  · exact sgsAux_indices trace gid _ _ 1 [] 0
  · exact sgsAux_len_le trace gid _ _ 1 [] 0
  · exact sgsAux_indices trace gid _ _ 1 [] 0
  · exact sgfAux_len_le trace gid _ _ 1 [] 0
  · exact sgfAux_indices trace gid _ _ 1 [] 0

theorem sgsAux_caps (trace : Nat → SurfSnap) (gid : Str) (s : Nat) :
    ∀ fuel idx seen streak,
      (sgsAux trace gid s fuel idx seen streak).captures
        = ((sgsAux trace gid s fuel idx seen streak).steps.map
            (fun x => x.2.1)).filter searchMilestone := by
  intro fuel
  induction fuel with
  | zero => intro idx seen streak; simp [sgsAux]
  | succ n ih =>
    intro idx seen streak
    simp only [sgsAux]
    split <;> split <;> by_cases h : searchMilestone idx <;>
      simp [h, ih (idx + 1)]

theorem sgfAux_caps (trace : Nat → SurfSnap) (gid : Str) (s : Nat) :
    ∀ fuel idx seen streak,
      (sgfAux trace gid s fuel idx seen streak).captures
        = ((sgfAux trace gid s fuel idx seen streak).steps.map
            (fun x => x.2.1)).filter feedMilestone := by
  intro fuel
  induction fuel with
  | zero => intro idx seen streak; simp [sgfAux]
  | succ n ih =>
    intro idx seen streak
    simp only [sgfAux]
    split
    · simp
    · split <;> split <;> by_cases h : feedMilestone idx <;>
        simp [h, ih (idx + 1)]

/-- C6 (counterexample): a feed-fallback run that reaches step indices
1, 2, 3, 4 captures a snapshot only at step 1 — step 3 is *not* a feed
milestone, contrary to the claim that every strategy captures at
1, 3, 5, 10, 25, .... -/
theorem feed_missing_step3_capture :
    (surface_group_feed emptyTrace ("5".toList) ⟨5, 4, 10⟩).steps.map (fun x => x.2.1)
        = [1, 2, 3, 4]
      ∧ (surface_group_feed emptyTrace ("5".toList) ⟨5, 4, 10⟩).captures = [1] := by
  constructor <;> decide

/-- C6 (amended): the search and identity-scoped strategies capture a
diagnostic snapshot exactly at the yielded step indices in
`{1, 3, 5, 10, 25, 50} ∪ 25ℕ` (`searchMilestone`); the feed-fallback
strategy captures exactly at the yielded step indices in
`{1, 5, 10, 25, 50} ∪ 25ℕ` (`feedMilestone`) — step 3 is captured by the
first two strategies but not by the feed fallback. -/
theorem capture_milestones (trace : Nat → SurfSnap) (gid : Str) (budget : Budget) :
    (surface_group_search trace gid budget).captures
        = ((surface_group_search trace gid budget).steps.map
            (fun x => x.2.1)).filter searchMilestone
    ∧ (surface_profile_group_posts trace gid budget).captures
        = ((surface_profile_group_posts trace gid budget).steps.map
            (fun x => x.2.1)).filter searchMilestone
    ∧ (surface_group_feed trace gid budget).captures
        = ((surface_group_feed trace gid budget).steps.map
            (fun x => x.2.1)).filter feedMilestone
    ∧ searchMilestone 3 = true ∧ feedMilestone 3 = false := by
  refine ⟨?_, ?_, ?_, by decide, by decide⟩
  · exact sgsAux_caps trace gid _ _ 1 [] 0
  · exact sgsAux_caps trace gid _ _ 1 [] 0
  · exact sgfAux_caps trace gid _ _ 1 [] 0

/-! ### Orchestration loop lemmas -/

/-- C4: processing a fresh candidate whose id is in the on-disk id set only
bumps `skipped_existing_post_id` (with the discovery bookkeeping); a fresh
candidate whose id is new but whose canonical URL is in the on-disk URL set
only bumps `skipped_existing`.  In both cases `verify_attempts`, the
verified set and the output are untouched — no verification happens and no
record is appended. -/
theorem skip_existing_effects (eu ei : List Str) (env : Str → CandEnv) (gid : Str)
    (idx : Nat) (st : RunState) (pid : Str) (hseen : pid ∉ st.seen) :
    (pid ∈ ei →
      processCandidate eu ei env gid idx st pid = { st with
        seen := st.seen ++ [pid],
        discoveredOrder := st.discoveredOrder + 1,
        stats := { st.stats with
          candidates_seen := (st.seen ++ [pid]).length,
          skipped_existing_post_id := st.stats.skipped_existing_post_id + 1 } })
    ∧ (pid ∉ ei → canonical_group_post_url gid pid ∈ eu →
      processCandidate eu ei env gid idx st pid = { st with
        seen := st.seen ++ [pid],
        discoveredOrder := st.discoveredOrder + 1,
        stats := { st.stats with
          candidates_seen := (st.seen ++ [pid]).length,
          skipped_existing := st.stats.skipped_existing + 1 } }) := by
  constructor
  · intro hid
    simp [processCandidate, hseen, hid]
  · intro hid hurl
    simp [processCandidate, hseen, hid, hurl]

/-- C4 (witness): a concrete already-recorded candidate `"11"`. -/
theorem skip_existing_effects_witness :
    processCandidate [] [("11".toList)] envVerifyAll ("5".toList) 1 initRunState ("11".toList)
      = { initRunState with
          seen := [("11".toList)], discoveredOrder := 1,
          stats := { initStats with candidates_seen := 1, skipped_existing_post_id := 1 } } := by
  have h := (skip_existing_effects [] [("11".toList)] envVerifyAll ("5".toList) 1
    initRunState ("11".toList) (by decide)).1 (by decide)
  simpa using h

theorem outputDedupInv_of_eq {st st' : RunState} (h : outputDedupInv st)
    (hv : st'.verified = st.verified) (ho : st'.output = st.output) :
    outputDedupInv st' := by
  unfold outputDedupInv at h ⊢
  rw [hv, ho]
  exact h

theorem processCandidate_dedup (eu ei : List Str) (env : Str → CandEnv) (gid : Str)
    (idx : Nat) (st : RunState) (pid : Str) (h : outputDedupInv st) :
    outputDedupInv (processCandidate eu ei env gid idx st pid) := by
  obtain ⟨h1, h2, h3⟩ := h
  by_cases hs : pid ∈ st.seen
  · exact outputDedupInv_of_eq ⟨h1, h2, h3⟩ (by simp [processCandidate, hs])
      (by simp [processCandidate, hs])
  by_cases hid : pid ∈ ei
  · exact outputDedupInv_of_eq ⟨h1, h2, h3⟩ (by simp [processCandidate, hs, hid])
      (by simp [processCandidate, hs, hid])
  by_cases hurl : canonical_group_post_url gid pid ∈ eu
  · exact outputDedupInv_of_eq ⟨h1, h2, h3⟩ (by simp [processCandidate, hs, hid, hurl])
      (by simp [processCandidate, hs, hid, hurl])
  by_cases hn : (env pid).navOk
  case neg =>
    exact outputDedupInv_of_eq ⟨h1, h2, h3⟩ (by simp [processCandidate, hs, hid, hurl, hn])
      (by simp [processCandidate, hs, hid, hurl, hn])
  by_cases hw : (env pid).wall
  case pos =>
    exact outputDedupInv_of_eq ⟨h1, h2, h3⟩ (by simp [processCandidate, hs, hid, hurl, hn, hw])
      (by simp [processCandidate, hs, hid, hurl, hn, hw])
  by_cases hv : (env pid).vr.verified
  case neg =>
    exact outputDedupInv_of_eq ⟨h1, h2, h3⟩
      (by simp [processCandidate, hs, hid, hurl, hn, hw, hv])
      (by simp [processCandidate, hs, hid, hurl, hn, hw, hv])
  by_cases hvd : pid ∈ st.verified
  case pos =>
    exact outputDedupInv_of_eq ⟨h1, h2, h3⟩
      (by simp [processCandidate, hs, hid, hurl, hn, hw, hv, hvd])
      (by simp [processCandidate, hs, hid, hurl, hn, hw, hv, hvd])
  have hvres : (processCandidate eu ei env gid idx st pid).verified
      = st.verified ++ [pid] := by
    simp [processCandidate, hs, hid, hurl, hn, hw, hv, hvd]
  have hores : (processCandidate eu ei env gid idx st pid).output
      = st.output ++ [⟨pid, (env pid).vr.method, (env pid).vr.author_uid_found,
          st.discoveredOrder + 1, st.stats.verify_attempts + 1, idx⟩] := by
    simp [processCandidate, hs, hid, hurl, hn, hw, hv, hvd]
  have hdisj : List.Disjoint st.verified [pid] := by
    intro a ha hb
    rw [List.mem_singleton] at hb
    exact hvd (hb ▸ ha)
  have hpidout : pid ∉ st.output.map OutRow.post_id := by
    intro hm
    rw [List.mem_map] at hm
    obtain ⟨r, hr, hrp⟩ := hm
    exact hvd (hrp ▸ h3 r hr)
  refine ⟨?_, ?_, ?_⟩
  · rw [hvres]
    exact h1.append (List.nodup_singleton _) hdisj
  · rw [hores, List.map_append]
    refine h2.append (List.nodup_singleton _) ?_
    intro a ha hb
    simp only [List.map_cons, List.map_nil, List.mem_singleton] at hb
    exact hpidout (hb ▸ ha)
  · intro r hr
    rw [hores] at hr
    rw [hvres]
    rcases List.mem_append.mp hr with hr | hr
    · exact List.mem_append_left _ (h3 r hr)
    · rw [List.mem_singleton] at hr
      subst hr
      exact List.mem_append_right _ (List.mem_singleton.mpr rfl)

theorem foldl_processCandidate_dedup (eu ei : List Str) (env : Str → CandEnv)
    (gid : Str) (idx : Nat) :
    ∀ (pids : List Str) (st : RunState), outputDedupInv st →
      outputDedupInv (pids.foldl (processCandidate eu ei env gid idx) st) := by
  intro pids
  induction pids with
  | nil => intro st h; simpa using h
  | cons p ps ih =>
    intro st h
    simpa using ih _ (processCandidate_dedup eu ei env gid idx st p h)

theorem runSteps_dedup (budget : Budget) (eu ei : List Str) (env : Str → CandEnv)
    (gid : Str) (timeUp : Nat → Bool) :
    ∀ (steps : List (List Str × Nat × Bool)) (k : Nat) (st : RunState),
      outputDedupInv st →
      outputDedupInv (runSteps budget eu ei env gid timeUp steps k st) := by
  intro steps
  induction steps with
  | nil => intro k st h; simpa [runSteps] using h
  | cons x rest ih =>
    intro k st h
    obtain ⟨newPids, scrollIdx, endSeen⟩ := x
    have h0 : outputDedupInv { st with
        stats := { st.stats with scrolls := scrollIdx } } :=
      outputDedupInv_of_eq h rfl rfl
    simp only [runSteps]
    split
    · exact outputDedupInv_of_eq h0 rfl rfl
    · split
      · split
        · exact foldl_processCandidate_dedup eu ei env gid scrollIdx newPids _
            (outputDedupInv_of_eq h rfl rfl)
        · exact ih (k + 1) _ (foldl_processCandidate_dedup eu ei env gid scrollIdx newPids _
            (outputDedupInv_of_eq h rfl rfl))
      · split
        · exact foldl_processCandidate_dedup eu ei env gid scrollIdx newPids _
            (outputDedupInv_of_eq h rfl rfl)
        · exact ih (k + 1) _ (foldl_processCandidate_dedup eu ei env gid scrollIdx newPids _
            (outputDedupInv_of_eq h rfl rfl))

/-- C8: within a single run — whatever the on-disk resume sets contain —
the appended output rows carry pairwise-distinct post ids: a candidate id
re-yielded later is dropped by the in-memory seen set, and a second positive
verification of the same id is dropped by the verified-set guard before any
append. -/
theorem run_output_post_ids_nodup (budget : Budget) (eu ei : List Str)
    (env : Str → CandEnv) (gid : Str) (timeUp : Nat → Bool)
    (steps : List (List Str × Nat × Bool)) :
    ((runFromInit budget eu ei env gid timeUp steps).output.map OutRow.post_id).Nodup :=
  (runSteps_dedup budget eu ei env gid timeUp steps 0 initRunState
    ⟨List.nodup_nil, List.nodup_nil, by simp [initRunState]⟩).2.1

theorem processCandidate_sync (eu ei : List Str) (env : Str → CandEnv) (gid : Str)
    (idx : Nat) (st : RunState) (pid : Str)
    (h : st.stats.verified_target_posts = st.verified.length) :
    (processCandidate eu ei env gid idx st pid).stats.verified_target_posts
      = (processCandidate eu ei env gid idx st pid).verified.length := by
  by_cases hs : pid ∈ st.seen
  · simpa [processCandidate, hs] using h
  by_cases hid : pid ∈ ei
  · simpa [processCandidate, hs, hid] using h
  by_cases hurl : canonical_group_post_url gid pid ∈ eu
  · simpa [processCandidate, hs, hid, hurl] using h
  by_cases hn : (env pid).navOk
  case neg => simpa [processCandidate, hs, hid, hurl, hn] using h
  by_cases hw : (env pid).wall
  case pos => simpa [processCandidate, hs, hid, hurl, hn, hw] using h
  by_cases hv : (env pid).vr.verified
  case neg => simpa [processCandidate, hs, hid, hurl, hn, hw, hv] using h
  by_cases hvd : pid ∈ st.verified
  case pos => simpa [processCandidate, hs, hid, hurl, hn, hw, hv, hvd] using h
  simp [processCandidate, hs, hid, hurl, hn, hw, hv, hvd]

theorem processCandidate_verified_len (eu ei : List Str) (env : Str → CandEnv)
    (gid : Str) (idx : Nat) (st : RunState) (pid : Str) :
    (processCandidate eu ei env gid idx st pid).verified.length
      ≤ st.verified.length + 1 := by
  by_cases hs : pid ∈ st.seen
  · simp [processCandidate, hs]
  by_cases hid : pid ∈ ei
  · simp [processCandidate, hs, hid]
  by_cases hurl : canonical_group_post_url gid pid ∈ eu
  · simp [processCandidate, hs, hid, hurl]
  by_cases hn : (env pid).navOk
  case neg => simp [processCandidate, hs, hid, hurl, hn]
  by_cases hw : (env pid).wall
  case pos => simp [processCandidate, hs, hid, hurl, hn, hw]
  by_cases hv : (env pid).vr.verified
  case neg => simp [processCandidate, hs, hid, hurl, hn, hw, hv]
  by_cases hvd : pid ∈ st.verified
  case pos => simp [processCandidate, hs, hid, hurl, hn, hw, hv, hvd]
  simp [processCandidate, hs, hid, hurl, hn, hw, hv, hvd]

theorem foldl_processCandidate_sync (eu ei : List Str) (env : Str → CandEnv)
    (gid : Str) (idx : Nat) :
    ∀ (pids : List Str) (st : RunState),
      st.stats.verified_target_posts = st.verified.length →
      (pids.foldl (processCandidate eu ei env gid idx) st).stats.verified_target_posts
        = (pids.foldl (processCandidate eu ei env gid idx) st).verified.length := by
  intro pids
  induction pids with
  | nil => intro st h; simpa using h
  | cons p ps ih =>
    intro st h
    simpa using ih _ (processCandidate_sync eu ei env gid idx st p h)

theorem foldl_processCandidate_verified_len (eu ei : List Str) (env : Str → CandEnv)
    (gid : Str) (idx : Nat) :
    ∀ (pids : List Str) (st : RunState),
      (pids.foldl (processCandidate eu ei env gid idx) st).verified.length
        ≤ st.verified.length + pids.length := by
  intro pids
  induction pids with
  | nil => intro st; simp
  | cons p ps ih =>
    intro st
    calc (((p :: ps).foldl (processCandidate eu ei env gid idx) st)).verified.length
        = ((ps.foldl (processCandidate eu ei env gid idx)
            (processCandidate eu ei env gid idx st p))).verified.length := by simp
      _ ≤ (processCandidate eu ei env gid idx st p).verified.length + ps.length := ih _
      _ ≤ (st.verified.length + 1) + ps.length :=
          Nat.add_le_add_right (processCandidate_verified_len eu ei env gid idx st p) _
      _ = st.verified.length + (p :: ps).length := by simp; omega

theorem stop_if_none {v N : Nat} {t : Bool}
    (h : stop_if_budget_or_time v N t = none) : v < N := by
  unfold stop_if_budget_or_time at h
  by_cases h1 : v ≥ N
  · simp [h1] at h
  · exact Nat.lt_of_not_le h1

theorem runSteps_vtp_bound (budget : Budget) (eu ei : List Str) (env : Str → CandEnv)
    (gid : Str) (timeUp : Nat → Bool) (K : Nat) (hN : 1 ≤ budget.max_posts) :
    ∀ (steps : List (List Str × Nat × Bool)),
      (∀ x ∈ steps, (x.1 : List Str).length ≤ K) →
      ∀ (k : Nat) (st : RunState),
        st.stats.verified_target_posts = st.verified.length →
        st.verified.length ≤ budget.max_posts - 1 + K →
        (runSteps budget eu ei env gid timeUp steps k st).stats.verified_target_posts
          ≤ budget.max_posts - 1 + K := by
  intro steps
  induction steps with
  | nil =>
    intro _ k st hsync hbound
    simpa [runSteps, hsync] using hbound
  | cons x rest ih =>
    intro hK k st hsync hbound
    obtain ⟨newPids, scrollIdx, endSeen⟩ := x
    have hKhead : newPids.length ≤ K := hK _ (List.mem_cons_self _ _)
    have hKrest : ∀ x ∈ rest, (x.1 : List Str).length ≤ K :=
      fun x hx => hK x (List.mem_cons_of_mem _ hx)
    simp only [runSteps]
    split
    · simpa [hsync] using hbound
    · rename_i hstop
      have hlt : st.verified.length < budget.max_posts := stop_if_none hstop
      have harith : st.verified.length + newPids.length ≤ budget.max_posts - 1 + K := by
        omega
      split <;> split
      · exact le_trans
          (le_of_eq (foldl_processCandidate_sync eu ei env gid scrollIdx newPids _ hsync))
          (le_trans (foldl_processCandidate_verified_len eu ei env gid scrollIdx newPids _)
            harith)
      · exact ih hKrest (k + 1) _
          (foldl_processCandidate_sync eu ei env gid scrollIdx newPids _ hsync)
          (le_trans (foldl_processCandidate_verified_len eu ei env gid scrollIdx newPids _)
            harith)
      · exact le_trans
          (le_of_eq (foldl_processCandidate_sync eu ei env gid scrollIdx newPids _ hsync))
          (le_trans (foldl_processCandidate_verified_len eu ei env gid scrollIdx newPids _)
            harith)
      · exact ih hKrest (k + 1) _
          (foldl_processCandidate_sync eu ei env gid scrollIdx newPids _ hsync)
          (le_trans (foldl_processCandidate_verified_len eu ei env gid scrollIdx newPids _)
            harith)

/-- C1 (counterexample): with `max_posts = 1`, one step carrying two
verifiable candidates yields `verified_target_posts = 2` — more than the
ceiling — and no stop reason, because the budget is checked only at step
boundaries, not after each verification. -/
theorem run_exceeds_max_posts_within_step :
    (runFromInit ⟨1, 10, 8⟩ [] [] envVerifyAll ("5".toList) (fun _ => false)
        [([("1".toList), ("2".toList)], 1, false)]).stats.verified_target_posts = 2
      ∧ (runFromInit ⟨1, 10, 8⟩ [] [] envVerifyAll ("5".toList) (fun _ => false)
        [([("1".toList), ("2".toList)], 1, false)]).stats.stopped_reason = none := by
  constructor <;> decide

/-- C1 (amended): the budget is re-evaluated before each step only (not
after each verification).  Consequently (i) over a whole run the verified
count is bounded by `max_posts - 1` plus the largest per-step candidate
count — it can exceed `max_posts` only within the step that crosses the
ceiling — and (ii) at the first step boundary reached with the ceiling met,
the run halts immediately with `stopped_reason = "max_posts"`, leaving the
remaining steps unprocessed and the state otherwise untouched. -/
theorem budget_checked_per_step :
    (∀ (budget : Budget) (eu ei : List Str) (env : Str → CandEnv) (gid : Str)
        (timeUp : Nat → Bool) (K : Nat) (steps : List (List Str × Nat × Bool)),
      1 ≤ budget.max_posts → (∀ x ∈ steps, (x.1 : List Str).length ≤ K) →
      (runFromInit budget eu ei env gid timeUp steps).stats.verified_target_posts
        ≤ budget.max_posts - 1 + K)
    ∧ (∀ (budget : Budget) (eu ei : List Str) (env : Str → CandEnv) (gid : Str)
        (timeUp : Nat → Bool) (newPids : List Str) (idx : Nat) (endSeen : Bool)
        (rest : List (List Str × Nat × Bool)) (k : Nat) (st : RunState),
      budget.max_posts ≤ st.verified.length →
      runSteps budget eu ei env gid timeUp ((newPids, idx, endSeen) :: rest) k st
        = { st with stats := { st.stats with
            scrolls := idx, stopped_reason := some ("max_posts".toList) } }) := by
  constructor
  · intro budget eu ei env gid timeUp K steps hN hK
    exact runSteps_vtp_bound budget eu ei env gid timeUp K hN steps hK 0 initRunState
      (by simp [initRunState, initStats]) (by simp [initRunState])
  · intro budget eu ei env gid timeUp newPids idx endSeen rest k st hge
    simp [runSteps, stop_if_budget_or_time, hge]

/-- C1 (witness): the amended theorem at a concrete run (`max_posts = 3`,
every step carries at most 2 candidates) and at a concrete saturated state. -/
theorem budget_checked_per_step_witness :
    ((runFromInit ⟨3, 10, 8⟩ [] [] envVerifyAll ("5".toList) (fun _ => false)
        [([("1".toList), ("2".toList)], 1, false)]).stats.verified_target_posts ≤ 3 - 1 + 2)
      ∧ (runSteps ⟨1, 10, 8⟩ [] [] envVerifyAll ("5".toList) (fun _ => false)
          [([("9".toList)], 2, false)] 1
          { initRunState with verified := [("1".toList)] }
          = { { initRunState with verified := [("1".toList)] } with
              stats := { initStats with
                scrolls := 2, stopped_reason := some ("max_posts".toList) } }) :=
  ⟨budget_checked_per_step.1 ⟨3, 10, 8⟩ [] [] envVerifyAll ("5".toList) (fun _ => false) 2
      [([("1".toList), ("2".toList)], 1, false)] (by decide)
      (by intro x hx; simp at hx; subst hx; decide),
    budget_checked_per_step.2 ⟨1, 10, 8⟩ [] [] envVerifyAll ("5".toList) (fun _ => false)
      [("9".toList)] 2 false [] 1 { initRunState with verified := [("1".toList)] }
      (by decide)⟩

theorem sgsAux_all_empty (trace : Nat → SurfSnap) (gid : Str) (s : Nat)
    (hE : ∀ k, extract_post_ids_from_anchors (trace k).anchorHrefs gid = [])
    (hEnd : ∀ k, (trace k).endSeen = false) :
    ∀ fuel idx seen streak, streak < s → s ≤ streak + fuel →
      (sgsAux trace gid s fuel idx seen streak).steps.length = s - streak
        ∧ ∀ x ∈ (sgsAux trace gid s fuel idx seen streak).steps,
            x.1 = ([] : List Str) ∧ x.2.2 = false := by
  intro fuel
  induction fuel with
  | zero =>
    intro idx seen streak h1 h2
    omega
  | succ n ih =>
    intro idx seen streak h1 h2
    by_cases hb : s ≤ streak + 1
    · constructor
      · simp [sgsAux, hE idx, hEnd idx, hb]
        omega
      · intro x hx
        simp [sgsAux, hE idx, hEnd idx, hb] at hx
        simp [hx, hEnd idx]
    · have h3 := ih (idx + 1) seen (streak + 1) (by omega) (by omega)
      constructor
      · simp [sgsAux, hE idx, hEnd idx, hb, h3.1]
        omega
      · intro x hx
        simp [sgsAux, hE idx, hEnd idx, hb] at hx
        rcases hx with hx | hx
        · simp [hx, hEnd idx]
        · exact h3.2 x hx

theorem runSteps_empty_steps (budget : Budget) (eu ei : List Str)
    (env : Str → CandEnv) (gid : Str) (hN : 1 ≤ budget.max_posts) :
    ∀ (steps : List (List Str × Nat × Bool)),
      (∀ x ∈ steps, x.1 = ([] : List Str) ∧ x.2.2 = false) →
      ∀ (k : Nat) (st : RunState), st.verified = [] →
        st.stats.stopped_reason = none →
        (runSteps budget eu ei env gid (fun _ => false) steps k st).stats.stopped_reason
            = none
          ∧ (runSteps budget eu ei env gid (fun _ => false) steps k st).verified = [] := by
  intro steps
  induction steps with
  | nil =>
    intro _ k st hv hr
    simpa [runSteps] using ⟨hr, hv⟩
  | cons x rest ih =>
    intro hx k st hv hr
    obtain ⟨newPids, scrollIdx, endSeen⟩ := x
    obtain ⟨hp, he⟩ := hx _ (List.mem_cons_self _ _)
    subst hp
    subst he
    have hstop : stop_if_budget_or_time st.verified.length budget.max_posts false = none := by
      simp [stop_if_budget_or_time, hv]
      omega
    simp only [runSteps, hstop, List.foldl_nil, Bool.false_eq_true, if_false]
    have hr2 : ({ st with stats := { st.stats with scrolls := scrollIdx } }
        : RunState).stats.stopped_reason = none := hr
    rw [if_neg (by simp [hr])]
    exact ih (fun y hy => hx y (List.mem_cons_of_mem _ hy)) (k + 1) _ hv hr

/-- C3 (counterexample): with `stop_after_no_new = 2` and a surface that
never yields a candidate, the strategy stops after exactly 2 steps while the
step budget (10) is far from exhausted — but the orchestrator records *no*
stop reason: `stopped_reason` stays `None`, and the consecutive-no-new
counter lives inside the strategy, not in the orchestrator. -/
theorem no_new_stop_reason_not_recorded :
    (surface_group_search emptyTrace ("5".toList) ⟨5, 10, 2⟩).steps.length = 2
      ∧ (runFromInit ⟨5, 10, 2⟩ [] [] envVerifyAll ("5".toList) (fun _ => false)
          (surface_group_search emptyTrace ("5".toList) ⟨5, 10, 2⟩).steps).stats.stopped_reason
          = none := by
  constructor <;> decide

/-- C3 (amended): when the surface yields zero new candidates at every step
(and no end marker), the run halts early — the strategy itself stops
yielding after exactly `stop_after_no_new` consecutive no-new steps, its
internally tracked streak counter reaching the threshold — but
`RunStats.stopped_reason` is left `None`; no no-new stop reason is
recorded by the orchestrator. -/
theorem no_new_candidate_halt (trace : Nat → SurfSnap) (gid : Str) (budget : Budget)
    (eu ei : List Str) (env : Str → CandEnv)
    (h1 : 1 ≤ budget.stop_after_no_new)
    (h2 : budget.stop_after_no_new ≤ budget.max_scrolls)
    (h3 : 1 ≤ budget.max_posts)
    (hE : ∀ k, extract_post_ids_from_anchors (trace k).anchorHrefs gid = [])
    (hEnd : ∀ k, (trace k).endSeen = false) :
    (surface_group_search trace gid budget).steps.length = budget.stop_after_no_new
      ∧ (runFromInit budget eu ei env gid (fun _ => false)
          (surface_group_search trace gid budget).steps).stats.stopped_reason = none := by
  have hsurf := sgsAux_all_empty trace gid budget.stop_after_no_new hE hEnd
    budget.max_scrolls 1 [] 0 (by omega) (by omega)
  constructor
  · simpa using hsurf.1
  · exact (runSteps_empty_steps budget eu ei env gid h3 _ hsurf.2 0 initRunState
      (by simp [initRunState]) (by simp [initRunState, initStats])).1

/-- C3 (witness): the amended theorem at the concrete all-empty fixture. -/
theorem no_new_candidate_halt_witness :
    (surface_group_search emptyTrace ("7".toList) ⟨5, 10, 3⟩).steps.length = 3
      ∧ (runFromInit ⟨5, 10, 3⟩ [] [] envVerifyAll ("7".toList) (fun _ => false)
          (surface_group_search emptyTrace ("7".toList) ⟨5, 10, 3⟩).steps).stats.stopped_reason
          = none :=
  no_new_candidate_halt emptyTrace ("7".toList) ⟨5, 10, 3⟩ [] [] envVerifyAll
    (by decide) (by decide) (by decide) (fun _ => rfl) (fun _ => rfl)

/-! ### Verifier lemmas -/

theorem scanLinks_core_pick (t_uid t_full t_slug : Str)
    (p1 p2 : List Str → Option Str) :
    ∀ (hrefs uids : List Str),
      vrCore (scanLinks p1 t_uid t_full t_slug uids hrefs)
        = vrCore (scanLinks p2 t_uid t_full t_slug uids hrefs) := by
  intro hrefs
  induction hrefs with
  | nil => intro uids; rfl
  | cons h rest ih =>
    intro uids
    simp only [scanLinks]
    cases hx : extract_profile_id_from_href (href_to_abs h) with
    | some u =>
      simp only [hx]
      split
      · rfl
      · split
        · rfl
        · split
          · rfl
          · exact ih _
    | none =>
      simp only [hx]
      split
      · rfl
      · split
        · rfl
        · exact ih _

theorem verify_author_core_pick (p1 p2 : List Str → Option Str) (page : VPage)
    (tp tu : Str) :
    Except.map vrCore (verify_author p1 page tp tu)
      = Except.map vrCore (verify_author p2 page tp tu) := by
  unfold verify_author
  cases hslug : normalize_target_slug tp with
  | error e => simp [hslug, bind, Except.bind]
  | ok sl =>
    simp only [hslug, bind, Except.bind]
    split
    · rfl
    · split
      · rfl
      · simp only [pure, Except.pure, Except.map]
        exact congrArg Except.ok (scanLinks_core_pick _ _ _ p1 p2 _ _)

/-- C2: `verify_author` is deterministic and rule 0 short-circuits.
(i) The `(verified, method)` pair is independent of the set-iteration order
`pick` — the only unspecified ingredient — so repeated calls on a fixed page
and fixed target agree on it.  (ii) When a target uid is supplied and the
embedded `actorID` field matches it, the result is `verified = true` with
`method = "uid"` regardless of any author link on the page — the first
satisfied rule wins (modulo the `ValueError` that `normalize_target_slug`
can raise first, which propagates). -/
theorem verify_author_deterministic_priority :
    (∀ (p1 p2 : List Str → Option Str) (page : VPage) (tp tu : Str),
      Except.map vrCore (verify_author p1 page tp tu)
        = Except.map vrCore (verify_author p2 page tp tu))
    ∧ (∀ (pick : List Str → Option Str) (page : VPage) (tp tu : Str),
      pyStrip tu ≠ [] → html_actorid_match page.content (pyStrip tu) = true →
      verify_author pick page tp tu
        = Except.map (fun _ => ⟨true, ("uid".toList), some (pyStrip tu)⟩)
            (normalize_target_slug tp)) := by
  constructor
  · exact verify_author_core_pick
  · intro pick page tp tu h1 h2
    unfold verify_author
    cases hslug : normalize_target_slug tp with
    | error e => simp [hslug, bind, Except.bind, Except.map]
    | ok sl =>
      simp only [hslug, bind, Except.bind]
      rw [if_pos ⟨h1, h2⟩]
      rfl

/-- C2 (witness): on a fixture carrying both a matching embedded `actorID`
and a non-matching author link, the method is `"uid"`, not `"profile_url"`,
and the `(verified, method)` pair is pick-independent. -/
theorem verify_author_deterministic_priority_witness :
    Except.map vrCore (verify_author pickHead pageActoridAndOtherLink
        ("https://www.facebook.com/some.user".toList) ("1007".toList))
      = Except.map vrCore (verify_author (fun _ => none) pageActoridAndOtherLink
        ("https://www.facebook.com/some.user".toList) ("1007".toList))
    ∧ verify_author pickHead pageActoridAndOtherLink
        ("https://www.facebook.com/some.user".toList) ("1007".toList)
      = Except.map (fun _ => ⟨true, ("uid".toList), some (pyStrip ("1007".toList))⟩)
          (normalize_target_slug ("https://www.facebook.com/some.user".toList)) :=
  ⟨verify_author_deterministic_priority.1 pickHead (fun _ => none) pageActoridAndOtherLink
      ("https://www.facebook.com/some.user".toList) ("1007".toList),
    verify_author_deterministic_priority.2 pickHead pageActoridAndOtherLink
      ("https://www.facebook.com/some.user".toList) ("1007".toList)
      (by decide) (by decide)⟩

theorem scanLinks_method_empty_uid (pick : List Str → Option Str) (t_full t_slug : Str) :
    ∀ (hrefs uids : List Str),
      (scanLinks pick [] t_full t_slug uids hrefs).method = ("profile_url".toList)
        ∨ (scanLinks pick [] t_full t_slug uids hrefs).method = ("slug".toList)
        ∨ (scanLinks pick [] t_full t_slug uids hrefs).method = ("none".toList) := by
  intro hrefs
  induction hrefs with
  | nil => intro uids; right; right; rfl
  | cons h rest ih =>
    intro uids
    simp only [scanLinks]
    cases hx : extract_profile_id_from_href (href_to_abs h) with
    | some u =>
      simp only [hx]
      rw [if_neg (by simp)]
      split
      · left; rfl
      · split
        · right; left; rfl
        · exact ih _
    | none =>
      simp only [hx]
      split
      · left; rfl
      · split
        · right; left; rfl
        · exact ih _

/-- C10: when the supplied target identity id is empty or whitespace-only,
`verify_author` never reports `method = "uid"`: every returned result's
method is `"profile_url"`, `"slug"` or `"none"`. -/
theorem verify_author_empty_uid_no_uid_method (pick : List Str → Option Str)
    (page : VPage) (tp tu : Str) (vr : VerificationResult)
    (h0 : pyStrip tu = []) (h : verify_author pick page tp tu = Except.ok vr) :
    vr.method ≠ ("uid".toList)
      ∧ (vr.method = ("profile_url".toList) ∨ vr.method = ("slug".toList)
          ∨ vr.method = ("none".toList)) := by
  have hmeth : vr.method = ("profile_url".toList) ∨ vr.method = ("slug".toList)
      ∨ vr.method = ("none".toList) := by
    unfold verify_author at h
    cases hslug : normalize_target_slug tp with
    | error e => rw [hslug] at h; exact absurd h (by simp [bind, Except.bind])
    | ok sl =>
      rw [hslug] at h
      simp only [bind, Except.bind] at h
      rw [if_neg (by simp [h0])] at h
      split at h
      · rename_i vr' heq
        simp only [pure, Except.pure, Except.ok.injEq] at h
        subst h
        split at heq
        · exact absurd heq (by simp)
        · split at heq
          · rename_i hc
            rw [h0] at hc
            revert hc
            cases extract_profile_id_from_href (href_to_abs _) <;> simp
          · split at heq
            · simp only [Option.some.injEq] at heq
              subst heq
              left; rfl
            · split at heq
              · simp only [Option.some.injEq] at heq
                subst heq
                right; left; rfl
              · exact absurd heq (by simp)
      · simp only [pure, Except.pure, Except.ok.injEq] at h
        subst h
        rw [h0]
        exact scanLinks_method_empty_uid pick _ _ _ _
  refine ⟨?_, hmeth⟩
  rcases hmeth with hm | hm | hm <;> rw [hm] <;> decide

/-- C10 (witness): a whitespace-only target uid on a concrete page. -/
theorem verify_author_empty_uid_no_uid_method_witness :
    ((⟨false, ("none".toList), none⟩ : VerificationResult).method ≠ ("uid".toList))
      ∧ ((⟨false, ("none".toList), none⟩ : VerificationResult).method = ("profile_url".toList)
        ∨ (⟨false, ("none".toList), none⟩ : VerificationResult).method = ("slug".toList)
        ∨ (⟨false, ("none".toList), none⟩ : VerificationResult).method = ("none".toList)) :=
  verify_author_empty_uid_no_uid_method pickHead pagePlainLink
    ("https://example.org/someone".toList) ("  ".toList)
    ⟨false, ("none".toList), none⟩ (by decide) (by decide)

theorem scanLinks_none_shape (pick : List Str → Option Str) (t_uid t_full t_slug : Str) :
    ∀ (hrefs uids : List Str),
      (scanLinks pick t_uid t_full t_slug uids hrefs).method = ("none".toList) →
      scanLinks pick t_uid t_full t_slug uids hrefs
        = ⟨false, ("none".toList), pickOpt pick (collectUids uids hrefs)⟩ := by
  intro hrefs
  induction hrefs with
  | nil => intro uids _; rfl
  | cons h rest ih =>
    intro uids hm
    rw [scanLinks] at hm ⊢
    rw [collectUids]
    revert hm
    cases hx : extract_profile_id_from_href (href_to_abs h) with
    | some u =>
      intro hm
      simp only at hm ⊢
      split at hm
      · simp at hm
      · split at hm
        · simp at hm
        · split at hm
          · simp at hm
          · rename_i h1 h2 h3
            rw [if_neg h1, if_neg h2, if_neg h3]
            exact ih _ hm
    | none =>
      intro hm
      simp only at hm ⊢
      split at hm
      · simp at hm
      · split at hm
        · simp at hm
        · rename_i h2 h3
          rw [if_neg h2, if_neg h3]
          exact ih _ hm

/-- C7 (counterexample): with the first-inserted-element iteration order — a
legitimate CPython set order — a page whose links carry uids 111 then 222
and match no rule yields `method = "none"` with `author_uid_found = 111`,
*not* the last-seen id 222.  The value is `next(iter(found_uids))` over an
unordered set, so "last-seen" is not what the code guarantees. -/
theorem verify_author_none_uid_not_last_seen :
    (∀ l : List Str, l ≠ [] → ∃ x ∈ l, pickHead l = some x)
      ∧ verify_author pickHead pageTwoUids
          ("https://www.facebook.com/target.user".toList) []
          = Except.ok ⟨false, ("none".toList), some ("111".toList)⟩
      ∧ collectUids [] (pageTwoUids.allHrefs.getD [])
          = [("111".toList), ("222".toList)] := by
  refine ⟨?_, by decide, by decide⟩
  intro l hl
  cases l with
  | nil => exact absurd rfl hl
  | cons a t => exact ⟨a, List.mem_cons_self a t, rfl⟩

/-- C7 (amended): when no rule matches, `verify_author` returns
`verified = false` with `method = "none"`, and `author_uid_found` carries
*some* element of the set of identity ids seen during the scan (whatever the
set-iteration order returns — not necessarily the last-seen one), or `None`
when no identity id was seen. -/
theorem verify_author_none_carries_seen_uid (pick : List Str → Option Str)
    (page : VPage) (tp tu : Str) (vr : VerificationResult)
    (hpick : ∀ l : List Str, l ≠ [] → ∃ x ∈ l, pick l = some x)
    (h : verify_author pick page tp tu = Except.ok vr)
    (hm : vr.method = ("none".toList)) :
    vr.verified = false
      ∧ ((collectUids [] (page.allHrefs.getD []) = [] ∧ vr.author_uid_found = none)
        ∨ ∃ u ∈ collectUids [] (page.allHrefs.getD []), vr.author_uid_found = some u) := by
  unfold verify_author at h
  cases hslug : normalize_target_slug tp with
  | error e => rw [hslug] at h; exact absurd h (by simp [bind, Except.bind])
  | ok sl =>
    rw [hslug] at h
    simp only [bind, Except.bind] at h
    split at h
    · simp only [pure, Except.pure, Except.ok.injEq] at h
      subst h
      simp at hm
    · split at h
      · rename_i vr' heq
        simp only [pure, Except.pure, Except.ok.injEq] at h
        subst h
        split at heq
        · exact absurd heq (by simp)
        · split at heq
          · simp only [Option.some.injEq] at heq
            subst heq
            simp at hm
          · split at heq
            · simp only [Option.some.injEq] at heq
              subst heq
              simp at hm
            · split at heq
              · simp only [Option.some.injEq] at heq
                subst heq
                simp at hm
              · exact absurd heq (by simp)
      · simp only [pure, Except.pure, Except.ok.injEq] at h
        subst h
        have hshape := scanLinks_none_shape pick (pyStrip tu) _ _
          (page.allHrefs.getD []) [] hm
        rw [hshape]
        rw [hshape] at hm
        constructor
        · rfl
        · by_cases hc : collectUids [] (page.allHrefs.getD []) = []
          · left
            exact ⟨hc, by simp [pickOpt, hc]⟩
          · right
            obtain ⟨x, hx, hpx⟩ := hpick _ hc
            exact ⟨x, hx, by simp [pickOpt, hc, hpx]⟩

/-- C7 (witness): the amended theorem at the two-uid fixture, where the
carried uid 111 is indeed an element of the seen-uid set. -/
theorem verify_author_none_carries_seen_uid_witness :
    ((⟨false, ("none".toList), some ("111".toList)⟩ : VerificationResult).verified = false)
      ∧ ((collectUids [] (pageTwoUids.allHrefs.getD []) = []
            ∧ (⟨false, ("none".toList), some ("111".toList)⟩
                : VerificationResult).author_uid_found = none)
        ∨ ∃ u ∈ collectUids [] (pageTwoUids.allHrefs.getD []),
            (⟨false, ("none".toList), some ("111".toList)⟩
              : VerificationResult).author_uid_found = some u) :=
  verify_author_none_carries_seen_uid pickHead pageTwoUids
    ("https://www.facebook.com/target.user".toList) []
    ⟨false, ("none".toList), some ("111".toList)⟩
    (fun l hl => match l, hl with
      | a :: t, _ => ⟨a, List.mem_cons_self a t, rfl⟩)
    (by decide) (by decide)

/-! ### URL canonicalization: split lemmas -/

theorem splitAtFirst_chEq_some {d : Char} :
    ∀ {l a b : Str}, splitAtFirst (fun c => c = d) l = some (a, b) →
      l = a ++ d :: b ∧ d ∉ a := by
  intro l
  induction l with
  | nil => intro a b h; simp [splitAtFirst] at h
  | cons c cs ih =>
    intro a b h
    rw [splitAtFirst] at h
    by_cases hc : c = d
    · rw [if_pos (by simp [hc])] at h
      simp only [Option.some.injEq, Prod.mk.injEq] at h
      obtain ⟨h1, h2⟩ := h
      subst h1; subst h2; subst hc
      exact ⟨rfl, by simp⟩
    · rw [if_neg (by simp [hc])] at h
      revert h
      cases hsp : splitAtFirst (fun c => c = d) cs with
      | none => intro h; simp at h
      | some ab =>
        obtain ⟨a', b'⟩ := ab
        intro h
        simp only [Option.some.injEq, Prod.mk.injEq] at h
        obtain ⟨h1, h2⟩ := h
        subst h2
        obtain ⟨e1, e2⟩ := ih hsp
        subst h1
        constructor
        · rw [List.cons_append, ← e1]
        · simp only [List.mem_cons, not_or]
          exact ⟨fun hcd => hc hcd.symm, e2⟩

theorem splitAtFirst_chEq_none {d : Char} :
    ∀ {l : Str}, splitAtFirst (fun c => c = d) l = none → d ∉ l := by
  intro l
  induction l with
  | nil => intro _; simp
  | cons c cs ih =>
    intro h
    rw [splitAtFirst] at h
    by_cases hc : c = d
    · rw [if_pos (by simp [hc])] at h
      simp at h
    · rw [if_neg (by simp [hc])] at h
      revert h
      cases hsp : splitAtFirst (fun c => c = d) cs with
      | none =>
        intro _
        simp only [List.mem_cons, not_or]
        exact ⟨fun hcd => hc hcd.symm, ih hsp⟩
      | some ab => obtain ⟨a', b'⟩ := ab; intro h; simp at h

theorem splitAtFirst_chEq_append {d : Char} :
    ∀ {a : Str} (b : Str), d ∉ a →
      splitAtFirst (fun c => c = d) (a ++ d :: b) = some (a, b) := by
  intro a
  induction a with
  | nil => intro b _; simp [splitAtFirst]
  | cons c cs ih =>
    intro b h
    simp only [List.mem_cons, not_or] at h
    rw [List.cons_append, splitAtFirst, if_neg (by simp; exact fun hc => h.1 hc.symm),
      ih b h.2]

theorem splitAtFirst_chEq_not_mem {d : Char} :
    ∀ {l : Str}, d ∉ l → splitAtFirst (fun c => c = d) l = none := by
  intro l
  induction l with
  | nil => intro _; rfl
  | cons c cs ih =>
    intro h
    simp only [List.mem_cons, not_or] at h
    rw [splitAtFirst, if_neg (by simp; exact fun hc => h.1 hc.symm), ih h.2]

theorem splitAtFirst_extend {p : Char → Bool} :
    ∀ {l m a b : Str}, splitAtFirst p l = some (a, b) →
      splitAtFirst p (l ++ m) = some (a, b ++ m) := by
  intro l
  induction l with
  | nil => intro m a b h; simp [splitAtFirst] at h
  | cons c cs ih =>
    intro m a b h
    rw [splitAtFirst] at h
    by_cases hc : p c
    · rw [if_pos hc] at h
      simp only [Option.some.injEq, Prod.mk.injEq] at h
      obtain ⟨h1, h2⟩ := h
      subst h1; subst h2
      rw [List.cons_append, splitAtFirst, if_pos hc]
    · rw [if_neg hc] at h
      revert h
      cases hsp : splitAtFirst p cs with
      | none => intro h; simp at h
      | some ab =>
        obtain ⟨a', b'⟩ := ab
        intro h
        simp only [Option.some.injEq, Prod.mk.injEq] at h
        obtain ⟨h1, h2⟩ := h
        subst h1; subst h2
        rw [List.cons_append, splitAtFirst, if_neg hc, ih hsp]

theorem splitAtLast_chEq_none {d : Char} :
    ∀ {l : Str}, splitAtLast (fun c => c = d) l = none → d ∉ l := by
  intro l
  induction l with
  | nil => intro _; simp
  | cons c cs ih =>
    intro h
    rw [splitAtLast] at h
    revert h
    cases hsp : splitAtLast (fun c => c = d) cs with
    | some ab => obtain ⟨a', b'⟩ := ab; intro h; simp at h
    | none =>
      intro h
      by_cases hc : c = d
      · rw [if_pos (by simp [hc])] at h
        simp at h
      · simp only [List.mem_cons, not_or]
        exact ⟨fun hcd => hc hcd.symm, ih hsp⟩

theorem splitAtLast_chEq_some {d : Char} :
    ∀ {l a b : Str}, splitAtLast (fun c => c = d) l = some (a, b) →
      l = a ++ d :: b ∧ d ∉ b := by
  intro l
  induction l with
  | nil => intro a b h; simp [splitAtLast] at h
  | cons c cs ih =>
    intro a b h
    rw [splitAtLast] at h
    revert h
    cases hsp : splitAtLast (fun c => c = d) cs with
    | some ab =>
      obtain ⟨a', b'⟩ := ab
      intro h
      simp only [Option.some.injEq, Prod.mk.injEq] at h
      obtain ⟨h1, h2⟩ := h
      subst h2
      obtain ⟨e1, e2⟩ := ih hsp
      subst h1
      exact ⟨by rw [List.cons_append, ← e1], e2⟩
    | none =>
      intro h
      by_cases hc : c = d
      · rw [if_pos (by simp [hc])] at h
        simp only [Option.some.injEq, Prod.mk.injEq] at h
        obtain ⟨h1, h2⟩ := h
        subst h1; subst h2; subst hc
        exact ⟨rfl, splitAtLast_chEq_none hsp⟩
      · rw [if_neg (by simp [hc])] at h
        simp at h

theorem head?_dropWhile_not (q : Char → Bool) :
    ∀ {l : Str} {c : Char}, (l.dropWhile q).head? = some c → ¬ q c := by
  intro l
  induction l with
  | nil => intro c h; simp at h
  | cons x xs ih =>
    intro c h
    rw [List.dropWhile_cons] at h
    by_cases hx : q x
    · rw [if_pos hx] at h
      exact ih h
    · rw [if_neg hx] at h
      simp only [List.head?_cons, Option.some.injEq] at h
      subst h
      exact hx

theorem span_append {q : Char → Bool} :
    ∀ {n r : Str}, (∀ c ∈ n, q c) → (∀ c, r.head? = some c → ¬ q c) →
      (n ++ r).takeWhile q = n ∧ (n ++ r).dropWhile q = r := by
  intro n
  induction n with
  | nil =>
    intro r _ hr
    cases r with
    | nil => simp
    | cons c cs =>
      have := hr c (by simp)
      rw [List.nil_append, List.takeWhile_cons, List.dropWhile_cons, if_neg this, if_neg this]
      exact ⟨rfl, rfl⟩
  | cons x xs ih =>
    intro r hn hr
    have hx : q x := hn x (by simp)
    have h2 := ih (fun c hc => hn c (by simp [hc])) hr
    rw [List.cons_append, List.takeWhile_cons, List.dropWhile_cons, if_pos hx, if_pos hx]
    exact ⟨by rw [h2.1], h2.2⟩

/-! ### URL canonicalization: scheme lemmas -/

theorem lowerChar_mem {c : Char} {q : Char × Char}
    (hf : upperLower.find? (fun r => r.1 = c) = some q) : lowerChar c = q.2 := by
  simp [lowerChar, hf]

theorem lowerChar_nomem {c : Char}
    (hf : upperLower.find? (fun r => r.1 = c) = none) : lowerChar c = c := by
  simp [lowerChar, hf]

theorem lowerChar_lowerChar (c : Char) : lowerChar (lowerChar c) = lowerChar c := by
  cases hf : upperLower.find? (fun r => r.1 = c) with
  | none => rw [lowerChar_nomem hf]; exact lowerChar_nomem hf
  | some q =>
    rw [lowerChar_mem hf]
    have hmem : q ∈ upperLower := List.mem_of_find?_eq_some hf
    have hnone : upperLower.find? (fun r => r.1 = q.2) = none := by
      rw [List.find?_eq_none]
      intro a ha
      have hfact : ∀ a ∈ upperLower, ∀ b ∈ upperLower, ¬ (a.1 = b.2) := by decide
      simpa using hfact a ha q hmem
    rw [lowerChar_nomem hnone]

theorem schemeChar_lowerChar {c : Char} (h : schemeChar c) : schemeChar (lowerChar c) := by
  cases hf : upperLower.find? (fun r => r.1 = c) with
  | none => rw [lowerChar_nomem hf]; exact h
  | some q =>
    rw [lowerChar_mem hf]
    have hmem : q ∈ upperLower := List.mem_of_find?_eq_some hf
    have hfact : ∀ b ∈ upperLower, schemeChar b.2 := by decide
    exact hfact q hmem

theorem isAsciiAlpha_lowerChar {c : Char} (h : isAsciiAlpha c) :
    isAsciiAlpha (lowerChar c) := by
  cases hf : upperLower.find? (fun r => r.1 = c) with
  | none => rw [lowerChar_nomem hf]; exact h
  | some q =>
    rw [lowerChar_mem hf]
    have hmem : q ∈ upperLower := List.mem_of_find?_eq_some hf
    have hfact : ∀ b ∈ upperLower, isAsciiAlpha b.2 := by decide
    exact hfact q hmem

theorem not_unsafe_lowerChar {c : Char} (h : ¬ isUnsafeByte c) :
    ¬ isUnsafeByte (lowerChar c) := by
  cases hf : upperLower.find? (fun r => r.1 = c) with
  | none => rw [lowerChar_nomem hf]; exact h
  | some q =>
    rw [lowerChar_mem hf]
    have hmem : q ∈ upperLower := List.mem_of_find?_eq_some hf
    have hfact : ∀ b ∈ upperLower, ¬ isUnsafeByte b.2 := by decide
    exact hfact q hmem

theorem lowerStr_lowerStr (s : Str) : lowerStr (lowerStr s) = lowerStr s := by
  unfold lowerStr
  rw [List.map_map]
  exact List.map_congr_left (fun c _ => lowerChar_lowerChar c)

theorem validSchemePre_lowerStr {s : Str} (h : validSchemePre s) :
    validSchemePre (lowerStr s) := by
  cases s with
  | nil => simp [validSchemePre] at h
  | cons c cs =>
    simp only [validSchemePre, Bool.and_eq_true, List.all_eq_true] at h
    obtain ⟨h1, h2⟩ := h
    simp only [lowerStr, List.map_cons, validSchemePre, Bool.and_eq_true, List.all_eq_true]
    constructor
    · exact isAsciiAlpha_lowerChar h1
    · intro x hx
      rw [List.mem_cons] at hx
      rcases hx with hx | hx
      · subst hx
        exact schemeChar_lowerChar (h2 c (by simp))
      · rw [List.mem_map] at hx
        obtain ⟨y, hy, hxy⟩ := hx
        subst hxy
        exact schemeChar_lowerChar (h2 y (by simp [hy]))

theorem colon_not_mem_of_schemeChars {s : Str} (h : s.all schemeChar) : ':' ∉ s := by
  intro hm
  rw [List.all_eq_true] at h
  have := h ':' hm
  simp [schemeChar, isAsciiAlpha, isAsciiDigit] at this

theorem validSchemePre_ne_nil {s : Str} (h : validSchemePre s) : s ≠ [] := by
  cases s with
  | nil => simp [validSchemePre] at h
  | cons c cs => simp

theorem splitScheme_of_not_valid {l : Str} (h : hasValidSchemeColon l = false) :
    splitScheme l = ([], l) := by
  rw [hasValidSchemeColon] at h
  rw [splitScheme]
  revert h
  cases hsp : splitAtFirst (fun c => c = ':') l with
  | none => intro _; rfl
  | some ab =>
    obtain ⟨pre, post⟩ := ab
    intro h
    simp only at h ⊢
    rw [if_neg (by simp [h])]

theorem hasValidSchemeColon_head {l : Str}
    (h : ∀ c, l.head? = some c → ¬ isAsciiAlpha c) : hasValidSchemeColon l = false := by
  rw [hasValidSchemeColon]
  cases hsp : splitAtFirst (fun c => c = ':') l with
  | none => rfl
  | some ab =>
    obtain ⟨pre, post⟩ := ab
    simp only
    obtain ⟨he, _⟩ := splitAtFirst_chEq_some hsp
    cases pre with
    | nil => rfl
    | cons c cs =>
      have hc : l.head? = some c := by rw [he]; rfl
      have hna := h c hc
      simp [validSchemePre, hna]

theorem hasValidSchemeColon_append_slash {l : Str} (h : hasValidSchemeColon l = false) :
    hasValidSchemeColon (l ++ ('/' :: [])) = false := by
  rw [hasValidSchemeColon] at h ⊢
  revert h
  cases hsp : splitAtFirst (fun c => c = ':') l with
  | some ab =>
    obtain ⟨pre, post⟩ := ab
    intro h
    rw [splitAtFirst_extend hsp]
    exact h
  | none =>
    intro _
    have hnm : (':' : Char) ∉ l ++ ('/' :: []) := by
      have h1 := splitAtFirst_chEq_none hsp
      simp [h1]
    rw [splitAtFirst_chEq_not_mem hnm]

theorem hasValidSchemeColon_of_prefix {l m : Str} (hpre : l <+: m)
    (h : (splitScheme m).1 = []) : hasValidSchemeColon l = false := by
  by_contra hv
  rw [Bool.not_eq_false, hasValidSchemeColon] at hv
  revert hv
  cases hsp : splitAtFirst (fun c => c = ':') l with
  | none => intro hv; simp at hv
  | some ab =>
    obtain ⟨pre, post⟩ := ab
    intro hv
    simp only at hv
    obtain ⟨he, hnm⟩ := splitAtFirst_chEq_some hsp
    obtain ⟨t, ht⟩ := hpre
    have hm : m = pre ++ ':' :: (post ++ t) := by
      rw [← ht, he]
      simp
    have hsm : splitAtFirst (fun c => c = ':') m = some (pre, post ++ t) := by
      rw [hm]
      exact splitAtFirst_chEq_append _ hnm
    rw [splitScheme, hsm] at h
    simp only at h
    rw [if_pos hv] at h
    have := validSchemePre_ne_nil hv
    cases pre with
    | nil => exact this rfl
    | cons c cs => simp [lowerStr] at h

theorem splitScheme_valid {s r : Str} (h1 : validSchemePre s) (h2 : lowerStr s = s) :
    splitScheme (s ++ ':' :: r) = (s, r) := by
  have hcolon : ':' ∉ s := by
    cases s with
    | nil => simp
    | cons c cs =>
      simp only [validSchemePre, Bool.and_eq_true] at h1
      exact colon_not_mem_of_schemeChars h1.2
  rw [splitScheme, splitAtFirst_chEq_append _ hcolon]
  simp [h1, h2]

/-! ### URL canonicalization: forceSlash and splitParams lemmas -/

theorem forceSlash_last (w : Str) : (forceSlash w).getLast? = some '/' := by
  rw [forceSlash]
  split
  · assumption
  · rw [List.getLast?_append_of_ne_nil _ (by simp)]
    rfl

theorem forceSlash_of_last {w : Str} (h : w.getLast? = some '/') : forceSlash w = w := by
  rw [forceSlash, if_pos h]

theorem forceSlash_append {x w : Str} (h : w ≠ []) :
    forceSlash (x ++ w) = x ++ forceSlash w := by
  rw [forceSlash, forceSlash, List.getLast?_append_of_ne_nil _ h]
  split
  · rfl
  · rw [List.append_assoc]

theorem forceSlash_cons {c : Char} {w : Str} (h : c ≠ '/') :
    forceSlash (c :: w) = c :: forceSlash w := by
  cases w with
  | nil =>
    rw [forceSlash, forceSlash]
    rw [if_neg (by simp [h]), if_neg (by simp)]
    rfl
  | cons x xs =>
    have : (c :: x :: xs) = [c] ++ (x :: xs) := rfl
    rw [this, forceSlash_append (by simp)]
    rfl

theorem mem_of_getLast? {l : Str} {c : Char} (h : l.getLast? = some c) : c ∈ l := by
  induction l with
  | nil => simp at h
  | cons x xs ih =>
    cases hxs : xs with
    | nil =>
      rw [hxs] at h
      simp only [List.getLast?_singleton, Option.some.injEq] at h
      simp [h]
    | cons y ys =>
      rw [hxs] at h ih
      rw [List.getLast?_cons_cons] at h
      simp [ih h]

theorem splitParams_of_last_slash {l : Str} (h : l.getLast? = some '/') :
    splitParams l = (l, []) := by
  rw [splitParams]
  cases hsl : splitAtLast (fun c => c = '/') l with
  | none =>
    have hnm := splitAtLast_chEq_none hsl
    exact absurd (mem_of_getLast? h) hnm
  | some ab =>
    obtain ⟨a, b⟩ := ab
    simp only
    obtain ⟨he, hnb⟩ := splitAtLast_chEq_some hsl
    cases hb : b with
    | nil =>
      rw [splitAtFirst]
    | cons y ys =>
      subst hb
      rw [he, List.getLast?_append_of_ne_nil _ (by simp),
        List.getLast?_cons_cons] at h
      exact absurd (mem_of_getLast? h) (by intro hm; exact hnb (by simp [hm]))

theorem stripUnsafe_eq_self {l : Str} (h : ∀ c ∈ l, ¬ isUnsafeByte c) :
    stripUnsafe l = l := by
  rw [stripUnsafe, List.filter_eq_self]
  intro a ha
  simp [h a ha]

theorem clean_stripUnsafe (l : Str) : ∀ c ∈ stripUnsafe l, ¬ isUnsafeByte c := by
  intro c hc
  rw [stripUnsafe, List.mem_filter] at hc
  simpa using hc.2

theorem splitScheme_spec (l : Str) :
    splitScheme l = ([], l)
      ∨ ∃ pre post, l = pre ++ ':' :: post ∧ validSchemePre pre
          ∧ splitScheme l = (lowerStr pre, post) := by
  rw [splitScheme]
  cases hsp : splitAtFirst (fun c => c = ':') l with
  | none => left; rfl
  | some ab =>
    obtain ⟨pre, post⟩ := ab
    simp only
    by_cases hv : validSchemePre pre
    · right
      exact ⟨pre, post, (splitAtFirst_chEq_some hsp).1, hv, by rw [if_pos hv]⟩
    · left
      rw [if_neg hv]

theorem splitParams_pre {l a b : Str} (h : splitParams l = (a, b)) :
    a ++ (if b ≠ [] then ';' :: b else []) <+: l := by
  rw [splitParams] at h
  revert h
  cases hsl : splitAtLast (fun c => c = '/') l with
  | some xy =>
    obtain ⟨x, y⟩ := xy
    simp only
    obtain ⟨hxy, _⟩ := splitAtLast_chEq_some hsl
    cases hsf : splitAtFirst (fun c => c = ';') y with
    | some y12 =>
      obtain ⟨y1, y2⟩ := y12
      simp only
      intro h
      obtain ⟨h1, h2⟩ := Prod.mk.injEq .. ▸ h
      subst h1
      subst h2
      obtain ⟨hy, _⟩ := splitAtFirst_chEq_some hsf
      by_cases hb : y2 = []
      · subst hb
        rw [if_neg (by simp)]
        rw [hxy, hy]
        refine ⟨[';'], ?_⟩
        simp
      · rw [if_pos hb]
        rw [hxy, hy]
        refine ⟨[], ?_⟩
        simp
    | none =>
      simp only
      intro h
      obtain ⟨h1, h2⟩ := Prod.mk.injEq .. ▸ h
      subst h1
      subst h2
      rw [if_neg (by simp)]
      simp
  | none =>
    simp only
    cases hsf : splitAtFirst (fun c => c = ';') l with
    | some y12 =>
      obtain ⟨y1, y2⟩ := y12
      simp only
      intro h
      obtain ⟨h1, h2⟩ := Prod.mk.injEq .. ▸ h
      subst h1
      subst h2
      obtain ⟨hy, _⟩ := splitAtFirst_chEq_some hsf
      by_cases hb : y2 = []
      · subst hb
        rw [if_neg (by simp)]
        rw [hy]
        exact ⟨';' :: [], by simp⟩
      · rw [if_pos hb]
        rw [hy]
    | none =>
      simp only
      intro h
      obtain ⟨h1, h2⟩ := Prod.mk.injEq .. ▸ h
      subst h1
      subst h2
      rw [if_neg (by simp)]
      simp

theorem prefix_head? {l m : Str} (h : l <+: m) {c : Char} (hc : l.head? = some c) :
    m.head? = some c := by
  obtain ⟨t, ht⟩ := h
  subst ht
  cases l with
  | nil => simp at hc
  | cons x xs =>
    simp only [List.head?_cons, Option.some.injEq] at hc
    simp [hc]

theorem not_alpha_of_delim {c : Char} (h : netlocDelim c) : ¬ isAsciiAlpha c := by
  have h2 : c = '/' ∨ c = '?' ∨ c = '#' := by simpa [netlocDelim] using h
  rcases h2 with h2 | h2 | h2 <;> subst h2 <;> decide


theorem cutAtFirst_take (d : Char) (l : Str) :
    (cutAtFirst d l).1 <+: l ∧ d ∉ (cutAtFirst d l).1 := by
  rw [cutAtFirst]
  cases hsp : splitAtFirst (fun c => c = d) l with
  | some ab =>
    obtain ⟨a, b⟩ := ab
    obtain ⟨he, hm⟩ := splitAtFirst_chEq_some hsp
    exact ⟨by rw [he]; exact List.prefix_append _ _, hm⟩
  | none => exact ⟨List.prefix_refl _, splitAtFirst_chEq_none hsp⟩

theorem cutAtFirst_not_mem {d : Char} {l : Str} (h : d ∉ l) : cutAtFirst d l = (l, []) := by
  rw [cutAtFirst, splitAtFirst_chEq_not_mem h]

theorem pyUrlsplit_ok {u : Str} {s n p q f : Str}
    (h : pyUrlsplit u = Except.ok (s, n, p, q, f)) :
    ∃ rest rest2,
      splitScheme (stripUnsafe u) = (s, rest)
      ∧ ((rest.take 2 = ('/' :: '/' :: [])
            ∧ n = (rest.drop 2).takeWhile (fun c => ¬ netlocDelim c)
            ∧ rest2 = (rest.drop 2).dropWhile (fun c => ¬ netlocDelim c))
          ∨ (n = [] ∧ rest2 = rest))
      ∧ bracketBad n = false
      ∧ p <+: rest2
      ∧ (∀ c ∈ rest2, c ∈ rest)
      ∧ '#' ∉ p ∧ '?' ∉ p := by
  rw [pyUrlsplit] at h
  simp only at h
  by_cases hnet : (splitScheme (stripUnsafe u)).2.take 2 = ('/' :: '/' :: [])
  · have hd : decide ((splitScheme (stripUnsafe u)).2.take 2 = ('/' :: '/' :: [])) = true :=
      decide_eq_true hnet
    rw [if_pos hd, if_pos hd] at h
    split at h
    · exact absurd h (by simp)
    · rename_i hbr
      simp only [Except.ok.injEq, Prod.mk.injEq] at h
      obtain ⟨hs, hn, hp, hq, hf⟩ := h
      subst hp
      refine ⟨(splitScheme (stripUnsafe u)).2,
        ((splitScheme (stripUnsafe u)).2.drop 2).dropWhile (fun c => ¬ netlocDelim c),
        Prod.ext hs rfl, Or.inl ⟨hnet, hn.symm, rfl⟩, by rw [← hn]; simpa using hbr,
        (cutAtFirst_take '?' _).1.trans (cutAtFirst_take '#' _).1, ?_, ?_,
        (cutAtFirst_take '?' _).2⟩
      · intro c hc
        have hdrop : c ∈ ((splitScheme (stripUnsafe u)).2.drop 2) := by
          rw [← List.takeWhile_append_dropWhile (fun c => ¬ netlocDelim c)
            ((splitScheme (stripUnsafe u)).2.drop 2)]
          exact List.mem_append_right _ hc
        exact List.mem_of_mem_drop hdrop
      · intro hc
        exact (cutAtFirst_take '#' _).2 ((cutAtFirst_take '?' _).1.subset hc)
  · have hd : ¬ (decide ((splitScheme (stripUnsafe u)).2.take 2
        = ('/' :: '/' :: [])) = true) := by simp [hnet]
    rw [if_neg hd, if_neg hd] at h
    split at h
    · exact absurd h (by simp)
    · simp only [Except.ok.injEq, Prod.mk.injEq] at h
      obtain ⟨hs, hn, hp, hq, hf⟩ := h
      subst hp
      refine ⟨(splitScheme (stripUnsafe u)).2, (splitScheme (stripUnsafe u)).2,
        Prod.ext hs rfl, Or.inr ⟨hn.symm, rfl⟩, by rw [← hn]; decide,
        (cutAtFirst_take '?' _).1.trans (cutAtFirst_take '#' _).1, fun c hc => hc, ?_,
        (cutAtFirst_take '?' _).2⟩
      intro hc
      exact (cutAtFirst_take '#' _).2 ((cutAtFirst_take '?' _).1.subset hc)

theorem parse_inv {u : Str} {P : UrlParts} (h : pyUrlparse u = Except.ok P) :
    (P.scheme = [] ∨ (validSchemePre P.scheme ∧ lowerStr P.scheme = P.scheme))
    ∧ (∀ c ∈ P.netloc, ¬ netlocDelim c)
    ∧ bracketBad P.netloc = false
    ∧ '#' ∉ pathParams P
    ∧ '?' ∉ pathParams P
    ∧ (∀ c ∈ P.scheme, ¬ isUnsafeByte c)
    ∧ (∀ c ∈ P.netloc, ¬ isUnsafeByte c)
    ∧ (∀ c ∈ pathParams P, ¬ isUnsafeByte c)
    ∧ (P.scheme = [] → hasValidSchemeColon (pathParams P) = false) := by
  rw [pyUrlparse] at h
  revert h
  cases hps : pyUrlsplit u with
  | error e => intro h; simp at h
  | ok t =>
    obtain ⟨s, n, p, q, f⟩ := t
    intro h
    simp only at h
    obtain ⟨rest, rest2, hsp, hbranch, hbr, hpre, hmem, hhash, hquest⟩ := pyUrlsplit_ok hps
    have hpair : ∃ a b, (if usesParams s ∧ ';' ∈ p then splitParams p else (p, [])) = (a, b)
        ∧ a ++ (if b ≠ [] then ';' :: b else []) <+: p := by
      by_cases hup : usesParams s ∧ ';' ∈ p
      · rw [if_pos hup]
        exact ⟨(splitParams p).1, (splitParams p).2, rfl, @splitParams_pre p _ _ rfl⟩
      · rw [if_neg hup]
        exact ⟨p, [], rfl, by simp⟩
    obtain ⟨a, b, hab, hPP⟩ := hpair
    rw [hab] at h
    simp only [Except.ok.injEq] at h
    subst h
    have hs_facts : (s = [] ∨ (validSchemePre s ∧ lowerStr s = s))
        ∧ (∀ c ∈ s, ¬ isUnsafeByte c)
        ∧ (∀ c ∈ rest, c ∈ stripUnsafe u)
        ∧ (s = [] → rest = stripUnsafe u) := by
      rcases splitScheme_spec (stripUnsafe u) with hss | ⟨pre, post, hu2, hv, hss⟩
      · rw [hsp] at hss
        obtain ⟨h1, h2⟩ := Prod.mk.injEq .. ▸ hss
        subst h1
        subst h2
        exact ⟨Or.inl rfl, by simp, fun c hc => hc, fun _ => rfl⟩
      · rw [hsp] at hss
        obtain ⟨h1, h2⟩ := Prod.mk.injEq .. ▸ hss
        subst h1
        subst h2
        refine ⟨Or.inr ⟨validSchemePre_lowerStr hv, lowerStr_lowerStr pre⟩, ?_, ?_, ?_⟩
        · intro c hc
          obtain ⟨c0, hc0, hcl⟩ := List.mem_map.mp hc
          have hc0u : c0 ∈ stripUnsafe u := by
            rw [hu2]
            exact List.mem_append_left _ hc0
          subst hcl
          exact not_unsafe_lowerChar (clean_stripUnsafe u c0 hc0u)
        · intro c hc
          rw [hu2]
          exact List.mem_append_right _ (by simp [hc])
        · intro h0
          exact absurd (List.map_eq_nil_iff.mp h0) (validSchemePre_ne_nil hv)
    have hn_delim : ∀ c ∈ n, ¬ netlocDelim c := by
      rcases hbranch with ⟨htk, hneq, hr2⟩ | ⟨hn0, hr2⟩
      · intro c hc
        rw [hneq] at hc
        have := List.mem_takeWhile_imp hc
        simpa using this
      · intro c hc
        rw [hn0] at hc
        simp at hc
    have hn_sub : ∀ c ∈ n, c ∈ rest := by
      rcases hbranch with ⟨htk, hneq, hr2⟩ | ⟨hn0, hr2⟩
      · intro c hc
        rw [hneq] at hc
        exact List.mem_of_mem_drop ((List.takeWhile_prefix _).subset hc)
      · intro c hc
        rw [hn0] at hc
        simp at hc
    have hrest_clean : ∀ c ∈ rest, ¬ isUnsafeByte c :=
      fun c hc => clean_stripUnsafe u c (hs_facts.2.2.1 c hc)
    have hcolon : s = [] → hasValidSchemeColon (a ++ (if b ≠ [] then ';' :: b else []))
        = false := by
      intro h0
      rcases hbranch with ⟨htk, hneq, hr2⟩ | ⟨hn0, hr2⟩
      · refine hasValidSchemeColon_head ?_
        intro c hc
        have hh : rest2.head? = some c := prefix_head? (hPP.trans hpre) hc
        rw [hr2] at hh
        have hd := head?_dropWhile_not _ hh
        have hd2 : netlocDelim c = true := by
          by_contra hx
          exact hd (by simp [hx])
        exact not_alpha_of_delim hd2
      · have hru : rest = stripUnsafe u := hs_facts.2.2.2 h0
        have heq : rest2 = stripUnsafe u := by rw [hr2, hru]
        have hpru : (a ++ if b ≠ [] then ';' :: b else []) <+: stripUnsafe u := by
          rw [← heq]
          exact hPP.trans hpre
        refine hasValidSchemeColon_of_prefix hpru ?_
        rw [hsp]
        exact h0
    refine ⟨hs_facts.1, hn_delim, hbr, ?_, ?_, hs_facts.2.1, ?_, ?_, hcolon⟩
    · exact fun hc => hhash (hPP.subset hc)
    · exact fun hc => hquest (hPP.subset hc)
    · exact fun c hc => hrest_clean c (hn_sub c hc)
    · exact fun c hc => hrest_clean c (hmem c (hpre.subset (hPP.subset hc)))

theorem take_two_cons (a b : Char) (t : Str) : (a :: b :: t).take 2 = (a :: b :: []) := rfl

theorem drop_two_cons (a b : Char) (t : Str) : (a :: b :: t).drop 2 = t := rfl

theorem ne_nil_of_take1 {l : Str} {c : Char} (h : l.take 1 = (c :: [])) : l ≠ [] := by
  intro h0
  subst h0
  simp at h

theorem take1_head? {l : Str} {c : Char} (h : l.take 1 = (c :: [])) : l.head? = some c := by
  cases l with
  | nil => simp at h
  | cons x xs =>
    have hx : x = c := by simpa using h
    simp [hx]

theorem forceSlash_ne_nil (l : Str) : forceSlash l ≠ [] := by
  rw [forceSlash]
  split
  · rename_i hl
    intro h0
    subst h0
    simp at hl
  · simp

theorem mem_forceSlash {c : Char} {l : Str} (h : c ∈ forceSlash l) : c ∈ l ∨ c = '/' := by
  rw [forceSlash] at h
  revert h
  split
  · exact fun h => Or.inl h
  · intro h
    rcases List.mem_append.mp h with h1 | h1
    · exact Or.inl h1
    · right
      simpa using h1

theorem clean_forceSlash {l : Str} (h : ∀ c ∈ l, ¬ isUnsafeByte c) :
    ∀ c ∈ forceSlash l, ¬ isUnsafeByte c := by
  intro c hc
  rcases mem_forceSlash hc with h1 | h1
  · exact h c h1
  · subst h1
    decide

theorem not_mem_forceSlash {d : Char} {l : Str} (h : d ∉ l) (h2 : d ≠ '/') :
    d ∉ forceSlash l := by
  intro hc
  rcases mem_forceSlash hc with h1 | h1
  · exact h h1
  · exact h2 h1

theorem forceSlash_take1 {l : Str} (h : l ≠ []) :
    (forceSlash l).take 1 = l.take 1 := by
  cases l with
  | nil => exact absurd rfl h
  | cons c cs =>
    rw [forceSlash]
    split
    · rfl
    · rfl

theorem forceSlash_take2_of_two {c1 c2 : Char} {t : Str} :
    (forceSlash (c1 :: c2 :: t)).take 2 = (c1 :: c2 :: t).take 2 := by
  rw [forceSlash]
  split
  · rfl
  · rfl

theorem forceSlash_take2_ne {l : Str} (h : l.take 2 ≠ ('/' :: '/' :: [])) :
    (forceSlash l).take 2 ≠ ('/' :: '/' :: []) := by
  match l with
  | [] => intro h2; simp [forceSlash] at h2
  | (c :: []) =>
    rw [forceSlash]
    split
    · intro h2; simp at h2
    · rename_i hl
      intro h2
      simp only [List.cons_append, List.nil_append] at h2
      have hc : c = '/' := by
        have : (c :: '/' :: []) = ('/' :: '/' :: []) := h2
        simpa using (List.cons.injEq .. ▸ this).1
      exact hl (by simp [hc])
  | (c1 :: c2 :: t) =>
    rw [forceSlash_take2_of_two]
    exact h

theorem forceSlash_take2_eq {l : Str} (h : l.take 2 = ('/' :: '/' :: [])) :
    (forceSlash l).take 2 = ('/' :: '/' :: []) := by
  match l with
  | [] => simp at h
  | (c :: []) =>
    have : (c :: []) = ('/' :: '/' :: []) := h
    simp at this
  | (c1 :: c2 :: t) =>
    rw [forceSlash_take2_of_two]
    exact h

theorem hasValidSchemeColon_forceSlash {j : Str} (h : hasValidSchemeColon j = false) :
    hasValidSchemeColon (forceSlash j) = false := by
  rw [forceSlash]
  split
  · exact h
  · exact hasValidSchemeColon_append_slash h

theorem pyUrlunsplit_blank (s n j : Str) :
    pyUrlunsplit s n j [] [] =
      if s ≠ [] then
        s ++ ':' :: (if n ≠ [] ∨ (j ≠ [] ∧ j.take 2 = ('/' :: '/' :: [])) then
          '/' :: '/' :: (n ++ (if j ≠ [] ∧ j.take 1 ≠ ('/' :: []) then '/' :: j else j))
        else j)
      else
        (if n ≠ [] ∨ (j ≠ [] ∧ j.take 2 = ('/' :: '/' :: [])) then
          '/' :: '/' :: (n ++ (if j ≠ [] ∧ j.take 1 ≠ ('/' :: []) then '/' :: j else j))
        else j) := by
  rw [pyUrlunsplit]
  simp

theorem canon_fix_net {s n F : Str}
    (hs : s = [] ∨ (validSchemePre s ∧ lowerStr s = s))
    (hn : ∀ c ∈ n, ¬ netlocDelim c)
    (hbr : bracketBad n = false)
    (hF1 : F.take 1 = ('/' :: []))
    (hFl : F.getLast? = some '/')
    (hFh : '#' ∉ F) (hFq : '?' ∉ F)
    (hcs : ∀ c ∈ s, ¬ isUnsafeByte c)
    (hcn : ∀ c ∈ n, ¬ isUnsafeByte c)
    (hcF : ∀ c ∈ F, ¬ isUnsafeByte c)
    (hout : n ≠ [] ∨ F.take 2 = ('/' :: '/' :: [])) :
    canonicalize_url (if s ≠ [] then s ++ ':' :: ('/' :: '/' :: (n ++ F))
        else ('/' :: '/' :: (n ++ F)))
      = Except.ok (if s ≠ [] then s ++ ':' :: ('/' :: '/' :: (n ++ F))
        else ('/' :: '/' :: (n ++ F))) := by
  have hF0 : F ≠ [] := ne_nil_of_take1 hF1
  have hFhead : F.head? = some '/' := take1_head? hF1
  have hRclean : ∀ c ∈ (('/' :: '/' :: (n ++ F)) : Str), ¬ isUnsafeByte c := by
    intro c hc
    simp only [List.mem_cons, List.mem_append] at hc
    rcases hc with hc | hc | hc | hc
    · subst hc; decide
    · subst hc; decide
    · exact hcn c hc
    · exact hcF c hc
  have hRlast : (('/' :: '/' :: (n ++ F)) : Str).getLast? = some '/' := by
    show ((('/' :: '/' :: []) ++ (n ++ F)) : Str).getLast? = some '/'
    rw [List.getLast?_append_of_ne_nil _ (by simp [hF0]),
      List.getLast?_append_of_ne_nil _ hF0]
    exact hFl
  have hcond : n ≠ [] ∨ (F ≠ [] ∧ F.take 2 = ('/' :: '/' :: [])) := by
    rcases hout with h | h
    · exact Or.inl h
    · exact Or.inr ⟨hF0, h⟩
  have hinner : ¬ (F ≠ [] ∧ F.take 1 ≠ ('/' :: [])) := by
    rintro ⟨-, hx⟩
    exact hx hF1
  have key : ∀ V : Str, (∀ c ∈ V, ¬ isUnsafeByte c) →
      splitScheme V = (s, ('/' :: '/' :: (n ++ F))) →
      pyUrlunsplit s n F [] [] = V →
      V.getLast? = some '/' →
      canonicalize_url V = Except.ok V := by
    intro V hVclean hVsplitRaw hVun hVlast
    have h1 : stripUnsafe V = V := stripUnsafe_eq_self hVclean
    have hVsplit : splitScheme (stripUnsafe V) = (s, ('/' :: '/' :: (n ++ F))) := by
      rw [h1]
      exact hVsplitRaw
    have hqn : ∀ c ∈ n, decide (¬ netlocDelim c = true) = true := by
      intro c hc
      simp [hn c hc]
    have hqr : ∀ c : Char, F.head? = some c → ¬ (decide (¬ netlocDelim c = true) = true) := by
      intro c hc
      rw [hFhead] at hc
      obtain rfl : '/' = c := Option.some.injEq .. ▸ hc
      decide
    have hspan := @span_append (fun c => ¬ netlocDelim c) n F hqn hqr
    have hd : decide ((('/' :: '/' :: (n ++ F)) : Str).take 2 = ('/' :: '/' :: [])) = true :=
      decide_eq_true (take_two_cons '/' '/' (n ++ F))
    have hsplitV : pyUrlsplit V = Except.ok (s, n, F, [], []) := by
      rw [pyUrlsplit]
      simp only [hVsplit]
      rw [if_pos hd, if_pos hd, drop_two_cons, hspan.1, hspan.2,
        if_neg (by simp [hbr]), cutAtFirst_not_mem hFh]
      simp [cutAtFirst_not_mem hFq]
    have hpp : (if usesParams s ∧ ';' ∈ F then splitParams F else (F, [])) = (F, []) := by
      split
      · exact splitParams_of_last_slash hFl
      · rfl
    have hparseV : pyUrlparse V = Except.ok ⟨s, n, F, [], [], []⟩ := by
      rw [pyUrlparse, hsplitV]
      simp [hpp]
    rw [canonicalize_url, hparseV]
    simp only [bind, Except.bind, pure, Except.pure]
    simp [pyUrlunparse]
    rw [hVun]
    exact forceSlash_of_last hVlast
  by_cases hs0 : s = []
  · subst hs0
    rw [if_neg (by simp)]
    refine key _ hRclean ?_ ?_ hRlast
    · refine splitScheme_of_not_valid (hasValidSchemeColon_head ?_)
      intro c hc
      simp only [List.head?_cons, Option.some.injEq] at hc
      subst hc
      decide
    · rw [pyUrlunsplit_blank, if_neg (by simp), if_pos hcond, if_neg hinner]
  · rw [if_pos hs0]
    rcases hs with h | ⟨hv, hl⟩
    · exact absurd h hs0
    refine key _ ?_ (splitScheme_valid hv hl) ?_ ?_
    · intro c hc
      rcases List.mem_append.mp hc with h1 | h1
      · exact hcs c h1
      · rcases List.mem_cons.mp h1 with h2 | h2
        · subst h2; decide
        · exact hRclean c h2
    · rw [pyUrlunsplit_blank, if_pos hs0, if_pos hcond, if_neg hinner]
    · show ((s ++ ':' :: ('/' :: '/' :: (n ++ F))) : Str).getLast? = some '/'
      rw [List.getLast?_append_of_ne_nil _ (by simp)]
      show (((':' :: []) ++ ('/' :: '/' :: (n ++ F))) : Str).getLast? = some '/'
      rw [List.getLast?_append_of_ne_nil _ (by simp)]
      exact hRlast

theorem canon_fix_nonet {s jF : Str}
    (hs : s = [] ∨ (validSchemePre s ∧ lowerStr s = s))
    (hjl : jF.getLast? = some '/')
    (hj2 : jF.take 2 ≠ ('/' :: '/' :: []))
    (hjh : '#' ∉ jF) (hjq : '?' ∉ jF)
    (hcs : ∀ c ∈ s, ¬ isUnsafeByte c)
    (hcj : ∀ c ∈ jF, ¬ isUnsafeByte c)
    (hcolon : s = [] → hasValidSchemeColon jF = false) :
    canonicalize_url (if s ≠ [] then s ++ ':' :: jF else jF)
      = Except.ok (if s ≠ [] then s ++ ':' :: jF else jF) := by
  have hj0 : jF ≠ [] := by
    intro h0
    rw [h0] at hjl
    simp at hjl
  have hcond : ¬ ((([] : Str) ≠ []) ∨ (jF ≠ [] ∧ jF.take 2 = ('/' :: '/' :: []))) := by
    rintro (h | ⟨-, h2⟩)
    · exact h rfl
    · exact hj2 h2
  have key : ∀ V : Str, (∀ c ∈ V, ¬ isUnsafeByte c) →
      splitScheme V = (s, jF) →
      pyUrlunsplit s [] jF [] [] = V →
      V.getLast? = some '/' →
      canonicalize_url V = Except.ok V := by
    intro V hVclean hVsplitRaw hVun hVlast
    have h1 : stripUnsafe V = V := stripUnsafe_eq_self hVclean
    have hVsplit : splitScheme (stripUnsafe V) = (s, jF) := by
      rw [h1]
      exact hVsplitRaw
    have hd : ¬ (decide ((jF : Str).take 2 = ('/' :: '/' :: [])) = true) := by
      simp [hj2]
    have hsplitV : pyUrlsplit V = Except.ok (s, [], jF, [], []) := by
      rw [pyUrlsplit]
      simp only [hVsplit]
      rw [if_neg hd, if_neg hd,
        if_neg (by decide : ¬ (bracketBad ([] : Str) = true)), cutAtFirst_not_mem hjh]
      simp [cutAtFirst_not_mem hjq]
    have hpp : (if usesParams s ∧ ';' ∈ jF then splitParams jF else (jF, [])) = (jF, []) := by
      split
      · exact splitParams_of_last_slash hjl
      · rfl
    have hparseV : pyUrlparse V = Except.ok ⟨s, [], jF, [], [], []⟩ := by
      rw [pyUrlparse, hsplitV]
      simp [hpp]
    rw [canonicalize_url, hparseV]
    simp only [bind, Except.bind, pure, Except.pure]
    simp [pyUrlunparse]
    rw [hVun]
    exact forceSlash_of_last hVlast
  by_cases hs0 : s = []
  · subst hs0
    rw [if_neg (by simp)]
    refine key _ hcj (splitScheme_of_not_valid (hcolon rfl)) ?_ hjl
    rw [pyUrlunsplit_blank, if_neg (by simp), if_neg hcond]
  · rw [if_pos hs0]
    rcases hs with h | ⟨hv, hl⟩
    · exact absurd h hs0
    refine key _ ?_ (splitScheme_valid hv hl) ?_ ?_
    · intro c hc
      rcases List.mem_append.mp hc with h1 | h1
      · exact hcs c h1
      · rcases List.mem_cons.mp h1 with h2 | h2
        · subst h2; decide
        · exact hcj c h2
    · rw [pyUrlunsplit_blank, if_pos hs0, if_neg hcond]
    · show ((s ++ ':' :: jF) : Str).getLast? = some '/'
      rw [List.getLast?_append_of_ne_nil _ (by simp)]
      show (((':' :: []) ++ jF) : Str).getLast? = some '/'
      rw [List.getLast?_append_of_ne_nil _ hj0]
      exact hjl

theorem take1_of_take2 {l : Str} (h : l.take 2 = ('/' :: '/' :: [])) :
    l.take 1 = ('/' :: []) := by
  cases l with
  | nil => simp at h
  | cons c t =>
    have h2 : c :: t.take 1 = ('/' :: '/' :: []) := h
    have hc : c = '/' := (List.cons.injEq .. ▸ h2).1
    subst hc
    rfl

theorem canon_reparse {s n j : Str}
    (hs : s = [] ∨ (validSchemePre s ∧ lowerStr s = s))
    (hn : ∀ c ∈ n, ¬ netlocDelim c)
    (hbr : bracketBad n = false)
    (hjh : '#' ∉ j) (hjq : '?' ∉ j)
    (hcs : ∀ c ∈ s, ¬ isUnsafeByte c)
    (hcn : ∀ c ∈ n, ¬ isUnsafeByte c)
    (hcj : ∀ c ∈ j, ¬ isUnsafeByte c)
    (hcolon : s = [] → hasValidSchemeColon j = false) :
    canonicalize_url (forceSlash (pyUrlunsplit s n j [] []))
      = Except.ok (forceSlash (pyUrlunsplit s n j [] [])) := by
  rw [pyUrlunsplit_blank]
  by_cases hcase : n ≠ [] ∨ (j ≠ [] ∧ j.take 2 = ('/' :: '/' :: []))
  · rw [if_pos hcase]
    have push : ∀ u0 F : Str, (n ++ u0) ≠ [] → forceSlash (n ++ u0) = n ++ F →
        F.take 1 = ('/' :: []) → F.getLast? = some '/' → '#' ∉ F → '?' ∉ F →
        (∀ c ∈ F, ¬ isUnsafeByte c) → (n ≠ [] ∨ F.take 2 = ('/' :: '/' :: [])) →
        canonicalize_url (forceSlash (if s ≠ [] then s ++ ':' :: ('/' :: '/' :: (n ++ u0))
            else ('/' :: '/' :: (n ++ u0))))
          = Except.ok (forceSlash (if s ≠ [] then s ++ ':' :: ('/' :: '/' :: (n ++ u0))
            else ('/' :: '/' :: (n ++ u0)))) := by
      intro u0 F hTne hF hF1 hFl hFh hFq hcF hout
      have hTT : forceSlash ('/' :: '/' :: (n ++ u0)) = '/' :: '/' :: (n ++ F) := by
        have h2 : forceSlash (('/' :: '/' :: []) ++ (n ++ u0))
            = ('/' :: '/' :: []) ++ forceSlash (n ++ u0) := forceSlash_append hTne
        rw [hF] at h2
        exact h2
      have hpush : forceSlash (if s ≠ [] then s ++ ':' :: ('/' :: '/' :: (n ++ u0))
            else ('/' :: '/' :: (n ++ u0)))
          = if s ≠ [] then s ++ ':' :: ('/' :: '/' :: (n ++ F))
            else ('/' :: '/' :: (n ++ F)) := by
        by_cases hs0 : s ≠ []
        · rw [if_pos hs0, if_pos hs0, forceSlash_append (by simp),
            forceSlash_cons (by decide), hTT]
        · rw [if_neg hs0, if_neg hs0, hTT]
      rw [hpush]
      exact canon_fix_net hs hn hbr hF1 hFl hFh hFq hcs hcn hcF hout
    by_cases hu : j ≠ [] ∧ j.take 1 ≠ ('/' :: [])
    · rw [if_pos hu]
      refine push ('/' :: j) (forceSlash ('/' :: j)) (by simp)
        (forceSlash_append (by simp)) ?_ (forceSlash_last _)
        (not_mem_forceSlash ?_ (by decide)) (not_mem_forceSlash ?_ (by decide))
        (clean_forceSlash ?_) ?_
      · rw [forceSlash_take1 (by simp)]
        rfl
      · intro hm
        rcases List.mem_cons.mp hm with h1 | h1
        · exact absurd h1 (by decide)
        · exact hjh h1
      · intro hm
        rcases List.mem_cons.mp hm with h1 | h1
        · exact absurd h1 (by decide)
        · exact hjq h1
      · intro c hc
        rcases List.mem_cons.mp hc with h1 | h1
        · subst h1; decide
        · exact hcj c h1
      · rcases hcase with h | ⟨-, h2⟩
        · exact Or.inl h
        · exact absurd (take1_of_take2 h2) hu.2
    · rw [if_neg hu]
      by_cases hj0 : j = []
      · subst hj0
        have hn0 : n ≠ [] := by
          rcases hcase with h | ⟨h, -⟩
          · exact h
          · exact absurd rfl h
        refine push [] (('/' :: []) : Str) (by simp [hn0]) ?_ (by decide) (by decide)
          (by decide) (by decide) (by decide) (Or.inl hn0)
        rw [List.append_nil, forceSlash, if_neg ?hnl]
        case hnl =>
          intro hx
          exact hn '/' (mem_of_getLast? hx) (by decide)
      · have ht1 : j.take 1 = ('/' :: []) := by
          by_contra hx
          exact hu ⟨hj0, hx⟩
        refine push j (forceSlash j) (by simp [hj0]) (forceSlash_append hj0) ?_
          (forceSlash_last _) (not_mem_forceSlash hjh (by decide))
          (not_mem_forceSlash hjq (by decide)) (clean_forceSlash hcj) ?_
        · rw [forceSlash_take1 hj0]
          exact ht1
        · rcases hcase with h | ⟨-, h2⟩
          · exact Or.inl h
          · exact Or.inr (forceSlash_take2_eq h2)
  · rw [if_neg hcase]
    have hj2F : (forceSlash j).take 2 ≠ ('/' :: '/' :: []) := by
      by_cases hj0 : j = []
      · subst hj0
        decide
      · refine forceSlash_take2_ne ?_
        intro hx
        exact hcase (Or.inr ⟨hj0, hx⟩)
    have hpush : forceSlash (if s ≠ [] then s ++ ':' :: j else j)
        = if s ≠ [] then s ++ ':' :: forceSlash j else forceSlash j := by
      by_cases hs0 : s ≠ []
      · rw [if_pos hs0, if_pos hs0, forceSlash_append (by simp), forceSlash_cons (by decide)]
      · rw [if_neg hs0, if_neg hs0]
    rw [hpush]
    exact canon_fix_nonet hs (forceSlash_last _) hj2F
      (not_mem_forceSlash hjh (by decide)) (not_mem_forceSlash hjq (by decide))
      hcs (clean_forceSlash hcj)
      (fun h0 => hasValidSchemeColon_forceSlash (hcolon h0))

theorem canon_ok_fix {u v : Str} (h : canonicalize_url u = Except.ok v) :
    canonicalize_url v = Except.ok v := by
  rw [canonicalize_url] at h
  revert h
  cases hp : pyUrlparse u with
  | error e => intro h; simp [bind, Except.bind] at h
  | ok P =>
    intro h
    simp only [bind, Except.bind, pure, Except.pure, Except.ok.injEq] at h
    obtain ⟨h1, h2, h3, h4, h5, h6, h7, h8, h9⟩ := parse_inv hp
    subst h
    have hrw : pyUrlunparse { P with query := [], fragment := [] }
        = pyUrlunsplit P.scheme P.netloc (pathParams P) [] [] := by
      rw [pyUrlunparse, pathParams]
    rw [hrw]
    exact canon_reparse h1 h2 h3 h4 h5 h6 h7 h8 h9

/-- C5: URL canonicalization is idempotent.  For every location string `u`,
composing `canonicalize_url` with itself (the `ValueError` a failing parse
raises propagates, as the Python function does not catch it) equals a single
application: in particular whenever `canonicalize_url u` succeeds with value
`v`, `canonicalize_url v` succeeds and returns `v` unchanged. -/
theorem canonicalize_url_idempotent (u : Str) :
    (canonicalize_url u).bind canonicalize_url = canonicalize_url u := by
  cases hc : canonicalize_url u with
  | error e => rfl
  | ok v =>
    show Except.bind (Except.ok v) canonicalize_url = Except.ok v
    simp only [Except.bind]
    exact canon_ok_fix hc
